import Mathlib

/-!
Verification development for the YouTube transcript summarizer repository.

The repository has three source files:
  * `transcript.py`  — `extract_video_id`, `get_transcript`, `clean_transcript`
  * `summarizer.py`  — `format_transcript`, `process_transcript`
  * `main.py`        — FastAPI route `process_video` mapping exceptions to HTTP codes

Strings are modelled as `List Char`.  Python regular-expression operations are
embedded as explicit left-to-right scanning functions, written so that every
definition is structurally recursive (hence executable and kernel-reducible).

Modelling conventions:
  * Python `\s` is modelled on the ASCII whitespace characters
    (space, tab, newline, carriage return, vertical tab, form feed).
  * Python `\w` is modelled as ASCII alphanumerics plus underscore.
  * `re.IGNORECASE` letter folding is modelled with `Char.toLower`.
  * Python exceptions are modelled with `Except`; the `ValueError` /
    other-exception split of `main.py` is modelled with the `PyExc` type.
  * Timing fields of transcript fragments are modelled as integers; the
    cleaning code never reads them.
-/

namespace YTS

/-- Character class of our model of Python `\s` (ASCII whitespace). -/
def isWsChar (c : Char) : Bool :=
  c = ' ' || c = '\t' || c = '\n' || c = '\r' || c = '\x0b' || c = '\x0c'

/-- Character class of our model of Python `\w` (ASCII word characters). -/
def isWordChar (c : Char) : Bool :=
  c.isAlphanum || c = '_'

/-- Character class `[.,!?]` used by the punctuation-spacing fix. -/
def isPunctChar (c : Char) : Bool :=
  c = '.' || c = ',' || c = '!' || c = '?'

/-- Character class `[.!?]` used by the sentence-segmentation lookbehind. -/
def isSentPunct (c : Char) : Bool :=
  c = '.' || c = '!' || c = '?'

/-- Identifier alphabet `[a-zA-Z0-9_-]` of `extract_video_id`. -/
def isIdChar (c : Char) : Bool :=
  c.isAlphanum || c = '_' || c = '-'

/-! ### Filler-word removal

`clean_transcript` applies
`re.sub(r'\b(um|uh|er|ah|like|you know|i mean|basically|actually|literally)\b',
        '', text, flags=re.IGNORECASE)`.
We model the single left-to-right substitution pass directly.  -/

/-- The filler lexicon, in the alternation order of the source regex. -/
def fillers : List (List Char) :=
  ["um".data, "uh".data, "er".data, "ah".data, "like".data,
   "you know".data, "i mean".data, "basically".data, "actually".data,
   "literally".data]

/-- Match one filler literal (IGNORECASE) at the head of `l`, and require the
trailing `\b`: the character after the literal, if any, is a non-word char. -/
def matchFiller : List Char → List Char → Bool
  | [], [] => true
  | [], c :: _ => !isWordChar c
  | _ :: _, [] => false
  | f :: fs, c :: cs => (c.toLower == f) && matchFiller fs cs

/-- Try the alternation at the current position; returns the length consumed. -/
def tryFiller : List (List Char) → List Char → Option Nat
  | [], _ => none
  | f :: fs, l => if matchFiller f l then some f.length else tryFiller fs l

/-- One pass of the filler substitution.  `skip` counts characters still to be
consumed by a match already found; `prevW` records whether the previous
character was a word character (this decides the leading `\b`). -/
def fillerGo : Nat → Bool → List Char → List Char
  | _, _, [] => []
  | Nat.succ n, _, _ :: rest => fillerGo n true rest
  | 0, prevW, c :: rest =>
    if prevW then c :: fillerGo 0 (isWordChar c) rest
    else
      match tryFiller fillers (c :: rest) with
      | some k => fillerGo (k - 1) true rest
      | none => c :: fillerGo 0 (isWordChar c) rest

/-- Model of the filler-removal `re.sub` of `clean_transcript`. -/
def fillerSub (l : List Char) : List Char := fillerGo 0 false l

/-! ### Whitespace collapse, strip, punctuation fix -/

/-- Model of `re.sub(r'\s+', ' ', text)`: collapse every whitespace run to a
single space.  The flag records being inside a run. -/
def collapseGo : Bool → List Char → List Char
  | _, [] => []
  | inRun, c :: rest =>
    if isWsChar c then
      if inRun then collapseGo true rest else ' ' :: collapseGo true rest
    else c :: collapseGo false rest

/-- Whitespace collapse. -/
def collapseWs (l : List Char) : List Char := collapseGo false l

/-- Leading part of Python `str.strip()`. -/
def stripL (l : List Char) : List Char := l.dropWhile (fun c => isWsChar c)

/-- Trailing part of Python `str.strip()`, written structurally. -/
def stripR : List Char → List Char
  | [] => []
  | c :: rest =>
    match stripR rest with
    | [] => if isWsChar c then [] else [c]
    | r => c :: r

/-- Model of Python `str.strip()`. -/
def pyStrip (l : List Char) : List Char := stripR (stripL l)

/-- Model of `re.sub(r'\s+([.,!?])', r'\1', text)`: delete every whitespace
run standing immediately before `.`, `,`, `!` or `?`.  `pend` buffers the
whitespace run currently being read (in reverse). -/
def punctGo (pend : List Char) : List Char → List Char
  | [] => pend.reverse
  | c :: rest =>
    if isWsChar c then punctGo (c :: pend) rest
    else if isPunctChar c then c :: punctGo [] rest
    else pend.reverse ++ c :: punctGo [] rest

/-- Punctuation-spacing fix. -/
def punctFix (l : List Char) : List Char := punctGo [] l

/-! ### Sentence segmentation

Model of `re.split(r'(?<=[.!?])\s+', text)`.  The machine state is
`(inSep, prevP, curRev)`: whether we are consuming separator whitespace,
whether the previous accumulated character was one of `.!?`, and the current
piece accumulated in reverse. -/

def splitGo : Bool → Bool → List Char → List Char → List (List Char)
  | false, _, curRev, [] => [curRev.reverse]
  | true, _, _, [] => [[]]
  | false, prevP, curRev, c :: rest =>
    if isWsChar c then
      if prevP then curRev.reverse :: splitGo true false [] rest
      else splitGo false false (c :: curRev) rest
    else splitGo false (isSentPunct c) (c :: curRev) rest
  | true, _, _, c :: rest =>
    if isWsChar c then splitGo true false [] rest
    else splitGo false (isSentPunct c) [c] rest

/-- Sentence segmentation. -/
def splitSentences (l : List Char) : List (List Char) := splitGo false false [] l

/-! ### Paragraph grouping -/

/-- Model of Python `sep.join(pieces)`. -/
def interc (sep : List Char) : List (List Char) → List Char
  | [] => []
  | [x] => x
  | x :: xs => x ++ sep ++ interc sep xs

/-- Join sentences of one paragraph with single spaces (`' '.join`). -/
def joinSp (xs : List (List Char)) : List Char := interc [' '] xs

/-- Join paragraphs with a blank line (`'\n\n'.join`). -/
def joinParas (ps : List (List Char)) : List Char := interc ['\n', '\n'] ps

/-- The grouping loop of `clean_transcript` / `format_transcript`: append the
sentence to the current paragraph; once it holds 4 sentences, close it. -/
def paraGo (cur : List (List Char)) : List (List Char) → List (List Char)
  | [] => if cur.isEmpty then [] else [joinSp cur]
  | s :: rest =>
    if 4 ≤ (cur ++ [s]).length then joinSp (cur ++ [s]) :: paraGo [] rest
    else paraGo (cur ++ [s]) rest

/-- Paragraph grouping producing the joined paragraph strings. -/
def groupParas (ss : List (List Char)) : List (List Char) := paraGo [] ss

/-- Sibling of `paraGo` that keeps the sentence lists of each paragraph
instead of joining them; used to state structural facts about grouping. -/
def paraChunksGo (cur : List (List Char)) :
    List (List Char) → List (List (List Char))
  | [] => if cur.isEmpty then [] else [cur]
  | s :: rest =>
    if 4 ≤ (cur ++ [s]).length then (cur ++ [s]) :: paraChunksGo [] rest
    else paraChunksGo (cur ++ [s]) rest

/-- Sentence lists of the paragraphs produced by grouping. -/
def paraChunks (ss : List (List Char)) : List (List (List Char)) :=
  paraChunksGo [] ss

/-! ### The two normalization entry points -/

/-- Pipeline applied by `clean_transcript` to the concatenated text. -/
def cleanText (t : List Char) : List Char :=
  joinParas (groupParas (splitSentences (punctFix (pyStrip (collapseWs (fillerSub t))))))

/-- One timed text fragment, as delivered by the transcript source.  The
timing fields are carried but never read by the cleaning code. -/
structure Fragment where
  text : List Char
  start : Int
  duration : Int
deriving DecidableEq

/-- Model of `clean_transcript` of `transcript.py`: join the `text` fields
with single spaces, then clean the flat string. -/
def clean_transcript (frags : List Fragment) : List Char :=
  cleanText (interc [' '] (frags.map Fragment.text))

/-- Model of `format_transcript` of `summarizer.py`: strip, segment into
sentences, group into paragraphs.  No filler removal, no whitespace collapse,
no punctuation fix. -/
def format_transcript (t : List Char) : List Char :=
  joinParas (groupParas (splitSentences (pyStrip t)))

/-! ### Video-identifier extraction

Model of `extract_video_id`: `re.search` of three patterns in order.  -/

/-- Match a regex literal at the head of the text; return the remainder. -/
def litMatch : List Char → List Char → Option (List Char)
  | [], l => some l
  | _ :: _, [] => none
  | p :: ps, c :: cs => if c = p then litMatch ps cs else none

/-- Match `[a-zA-Z0-9_-]{n}` at the head of the text, returning the chars. -/
def grabId : Nat → List Char → Option (List Char)
  | 0, _ => some []
  | _ + 1, [] => none
  | n + 1, c :: cs => if isIdChar c then (grabId n cs).map (c :: ·) else none

/-- Attempt of pattern 1 at the current position: the alternation of the
`watch?v=`, `youtu.be/` and `embed/` prefixes, then 11 identifier chars. -/
def tryMatchP1 (l : List Char) : Option (List Char) :=
  match litMatch "youtube.com/watch?v=".data l with
  | some r => grabId 11 r
  | none =>
    match litMatch "youtu.be/".data l with
    | some r => grabId 11 r
    | none =>
      match litMatch "youtube.com/embed/".data l with
      | some r => grabId 11 r
      | none => none

/-- Leftmost search of pattern 1. -/
def searchP1 : List Char → Option (List Char)
  | [] => none
  | c :: rest =>
    match tryMatchP1 (c :: rest) with
    | some id => some id
    | none => searchP1 rest

/-- Attempt of pattern 2 (`shorts/`) at the current position. -/
def tryMatchP2 (l : List Char) : Option (List Char) :=
  match litMatch "youtube.com/shorts/".data l with
  | some r => grabId 11 r
  | none => none

/-- Leftmost search of pattern 2. -/
def searchP2 : List Char → Option (List Char)
  | [] => none
  | c :: rest =>
    match tryMatchP2 (c :: rest) with
    | some id => some id
    | none => searchP2 rest

/-- Pattern 3, `^([a-zA-Z0-9_-]{11})$`: anchored to the whole string; the
Python `$` also matches just before one final newline. -/
def matchP3 (l : List Char) : Option (List Char) :=
  match grabId 11 l with
  | some id =>
    if l.drop 11 = [] || l.drop 11 = ['\n'] then some id else none
  | none => none

/-- Model of a Python exception as raised and dispatched by this program:
`main.py` maps `ValueError` to HTTP 400 and any other exception to 500. -/
inductive PyExc
  | valueError (msg : List Char)
  | otherExc (msg : List Char)
deriving DecidableEq

/-- Model of `extract_video_id`: the three patterns in priority order, else
`ValueError` carrying the input URL. -/
def extract_video_id (url : List Char) : Except PyExc (List Char) :=
  match searchP1 url with
  | some id => .ok id
  | none =>
    match searchP2 url with
    | some id => .ok id
    | none =>
      match matchP3 url with
      | some id => .ok id
      | none =>
        .error (.valueError ("Could not extract video ID from URL: ".data ++ url))

/-! ### Transcript fetch and the pipeline error mapping -/

/-- Outcome of the external `api.fetch` call: a fragment list, or an
exception carrying a message. -/
inductive FetchOutcome
  | fetched (frags : List Fragment)
  | raised (msg : List Char)

/-- ASCII lowercase of a string, modelling `str.lower()`. -/
def lowerL (l : List Char) : List Char := l.map Char.toLower

/-- Prefix test used by the substring search. -/
def startsWithL : List Char → List Char → Bool
  | [], _ => true
  | _ :: _, [] => false
  | a :: as, b :: bs => (a == b) && startsWithL as bs

/-- Model of the Python `in` substring test: `containsSub needle hay`. -/
def containsSub (needle : List Char) : List Char → Bool
  | [] => needle.isEmpty
  | c :: rest => startsWithL needle (c :: rest) || containsSub needle rest

/-- Model of `get_transcript`: every exception from the fetch is caught and
re-raised as a `ValueError`, with the message chosen by substring tests on
the lowercased exception text. -/
def get_transcript (r : FetchOutcome) : Except PyExc (List Fragment) :=
  match r with
  | .fetched frags => .ok frags
  | .raised msg =>
    if containsSub "disabled".data (lowerL msg) then
      .error (.valueError "Transcripts are disabled for this video".data)
    else if containsSub "no transcript".data (lowerL msg) then
      .error (.valueError "No transcript found for this video".data)
    else
      .error (.valueError ("Failed to fetch transcript: ".data ++ msg))

/-- Model of `get_clean_transcript`: extract the id, fetch, clean; the first
raised exception propagates. -/
def get_clean_transcript (fetch : List Char → FetchOutcome) (url : List Char) :
    Except PyExc (List Char × List Char) :=
  match extract_video_id url with
  | .error e => .error e
  | .ok vid =>
    match get_transcript (fetch vid) with
    | .error e => .error e
    | .ok frags => .ok (vid, clean_transcript frags)

/-- HTTP status chosen by the `except` clauses of `process_video`. -/
def statusOf : PyExc → Nat
  | .valueError _ => 400
  | .otherExc _ => 500

/-- HTTP status of a `/process` request in `main.py`: 200 on success,
otherwise the status assigned to the raised exception. -/
def processStatus (fetch : List Char → FetchOutcome) (url : List Char) : Nat :=
  match get_clean_transcript fetch url with
  | .ok _ => 200
  | .error e => statusOf e

/-! ### Predicates used to state and prove the string invariants

These scanners carry one boolean of lookbehind state: `p` records a fact
about the character immediately before the current suffix. -/

/-- Whether the character before the end of the list is whitespace (`p` is
the answer for the empty list). -/
def endWs (p : Bool) : List Char → Bool
  | [] => p
  | c :: rest => endWs (isWsChar c) rest

/-- No two adjacent whitespace characters (with lookbehind state `p`). -/
def noWW (p : Bool) : List Char → Bool
  | [] => true
  | c :: rest => !(p && isWsChar c) && noWW (isWsChar c) rest

/-- No whitespace character immediately followed by `.`, `,`, `!` or `?`. -/
def noWP (p : Bool) : List Char → Bool
  | [] => true
  | c :: rest => !(p && isPunctChar c) && noWP (isWsChar c) rest

/-- No `.`, `!` or `?` immediately followed by whitespace (`p` records
whether the previous character was sentence punctuation). -/
def noSentWs (p : Bool) : List Char → Bool
  | [] => true
  | c :: rest => !(p && isWsChar c) && noSentWs (isSentPunct c) rest

/-- Whether the character before the end of the list is `.`, `!` or `?`. -/
def endSent (p : Bool) : List Char → Bool
  | [] => p
  | c :: rest => endSent (isSentPunct c) rest

/-- All whitespace characters of the list are plain spaces. -/
def allSp (l : List Char) : Bool := l.all (fun c => !isWsChar c || c = ' ')

/-- The head, if any, is not whitespace. -/
def headNonWs : List Char → Bool
  | [] => true
  | c :: _ => !isWsChar c

/-- The head, if any, is not `.`, `,`, `!` or `?`. -/
def headNonPunct : List Char → Bool
  | [] => true
  | c :: _ => !isPunctChar c

/-- States of the whitespace-run recognizer: after a non-whitespace
character, after a single space, after one `\n`, after `\n\n`. -/
inductive WsSt
  | n0
  | sp
  | n1
  | n2
deriving DecidableEq

/-- One step of the whitespace-run recognizer.  It rejects any whitespace
run other than a lone space or an exact two-newline separator. -/
def wsStep : WsSt → Char → Option WsSt
  | .n0, c =>
    if c = ' ' then some .sp
    else if c = '\n' then some .n1
    else if isWsChar c then none else some .n0
  | .sp, c => if isWsChar c then none else some .n0
  | .n1, c => if c = '\n' then some .n2 else none
  | .n2, c => if isWsChar c then none else some .n0

/-- Run the whitespace-run recognizer over a list. -/
def wsRun (s : WsSt) : List Char → Option WsSt
  | [] => some s
  | c :: rest =>
    match wsStep s c with
    | some s2 => wsRun s2 rest
    | none => none

/-- Every maximal whitespace run of the list is a single space or the
two-newline paragraph separator. -/
def wsOk (l : List Char) : Bool :=
  match wsRun .n0 l with
  | some s => s != .n1
  | none => false

/-- Whether some position of the list starts 11 consecutive identifier
characters. -/
def has11Run : List Char → Bool
  | [] => false
  | c :: rest => (grabId 11 (c :: rest)).isSome || has11Run rest

/-- Flat interleaving of sentences with the joiners chosen by the
4-per-paragraph grouping: the `k`-th gap carries the paragraph separator
when `k` is a multiple of 4, a single space otherwise. -/
def rebuildFrom (k : Nat) : List (List Char) → List Char
  | [] => []
  | p :: rest =>
    (if k % 4 = 0 then ['\n', '\n'] else [' ']) ++ p ++ rebuildFrom (k + 1) rest

/-- Flat form of `joinParas (groupParas ss)`. -/
def rebuild : List (List Char) → List Char
  | [] => []
  | p :: rest => p ++ rebuildFrom 1 rest

/-- Invariants of a single sentence piece produced by segmentation of a
normalized string: whitespace chars are single interior spaces, no space
before `.,!?`, no `.!?` followed by whitespace inside the piece, and the
piece neither starts nor ends with whitespace. -/
def pieceOk (p : List Char) : Bool :=
  allSp p && noWW false p && noWP false p && noSentWs false p
    && headNonWs p && !endWs false p

/-- Invariants of the whole sentence list produced by segmentation of a
normalized string: the list is nonempty, every piece is a good piece, every
piece but the last ends with sentence punctuation, and every piece after
the first is nonempty and starts with a character other than `.,!?`. -/
def piecesOk : List (List Char) → Bool
  | [] => false
  | p0 :: rest =>
    pieceOk p0
    && ((p0 :: rest).dropLast.all fun p => endSent false p)
    && (rest.all fun p => pieceOk p && headNonPunct p && !p.isEmpty)

/-! ## Lemmas about paragraph grouping -/

theorem paraGo_eq_map_joinSp (rest : List (List Char)) :
    ∀ cur, paraGo cur rest = (paraChunksGo cur rest).map joinSp := by
  induction rest with
  | nil =>
    intro cur
    cases hc : cur.isEmpty <;> simp [paraGo, paraChunksGo, hc]
  | cons s rest ih =>
    intro cur
    by_cases h : 4 ≤ (cur ++ [s]).length
    · simp only [paraGo, paraChunksGo, if_pos h, List.map_cons, ih]
    · simp only [paraGo, paraChunksGo, if_neg h, ih]

theorem groupParas_eq_map_joinSp (ss : List (List Char)) :
    groupParas ss = (paraChunks ss).map joinSp :=
  paraGo_eq_map_joinSp ss []

theorem paraChunksGo_flatten (rest : List (List Char)) :
    ∀ cur, (paraChunksGo cur rest).flatten = cur ++ rest := by
  induction rest with
  | nil =>
    intro cur
    cases hc : cur.isEmpty
    · simp [paraChunksGo, hc]
    · simp [paraChunksGo, hc, List.isEmpty_iff.mp hc]
  | cons s rest ih =>
    intro cur
    by_cases h : 4 ≤ (cur ++ [s]).length
    · simp only [paraChunksGo, if_pos h, List.flatten_cons, ih,
        List.append_nil, List.append_assoc, List.cons_append,
        List.nil_append]
    · simp only [paraChunksGo, if_neg h, ih, List.append_assoc,
        List.cons_append, List.nil_append]

theorem paraChunksGo_bounds (rest : List (List Char)) :
    ∀ cur, cur.length ≤ 3 →
      ∀ p ∈ paraChunksGo cur rest, 1 ≤ p.length ∧ p.length ≤ 4 := by
  induction rest with
  | nil =>
    intro cur hcur p hp
    cases hc : cur.isEmpty
    · simp only [paraChunksGo, hc] at hp
      simp at hp
      have hne : cur ≠ [] := by
        intro h0
        rw [h0] at hc
        simp at hc
      rw [hp]
      exact ⟨List.length_pos.mpr hne, by omega⟩
    · simp only [paraChunksGo, hc] at hp
      simp at hp
  | cons s rest ih =>
    intro cur hcur p hp
    by_cases h : 4 ≤ (cur ++ [s]).length
    · simp only [paraChunksGo, if_pos h] at hp
      rcases List.mem_cons.mp hp with h1 | h1
      · rw [h1]
        simp only [List.length_append, List.length_singleton]
        omega
      · exact ih [] (by simp) p h1
    · simp only [paraChunksGo, if_neg h] at hp
      refine ih _ ?_ p hp
      simp only [List.length_append, List.length_singleton] at h ⊢
      omega

theorem paraChunksGo_ne_nil (rest : List (List Char)) :
    ∀ cur, cur ≠ [] ∨ rest ≠ [] → paraChunksGo cur rest ≠ [] := by
  induction rest with
  | nil =>
    intro cur h
    rcases h with h | h
    · have hc : cur.isEmpty = false := by
        cases cur with
        | nil => exact absurd rfl h
        | cons a l => rfl
      simp [paraChunksGo, hc]
    · exact absurd rfl h
  | cons s rest ih =>
    intro cur _
    by_cases h4 : 4 ≤ (cur ++ [s]).length
    · simp only [paraChunksGo, if_pos h4]
      simp
    · simp only [paraChunksGo, if_neg h4]
      exact ih _ (Or.inl (by simp))

theorem paraChunksGo_dropLast (rest : List (List Char)) :
    ∀ cur, cur.length ≤ 3 →
      ∀ p ∈ (paraChunksGo cur rest).dropLast, p.length = 4 := by
  induction rest with
  | nil =>
    intro cur _ p hp
    cases hc : cur.isEmpty
    · simp only [paraChunksGo, hc] at hp
      simp at hp
    · simp only [paraChunksGo, hc] at hp
      simp at hp
  | cons s rest ih =>
    intro cur hc p hp
    by_cases h4 : 4 ≤ (cur ++ [s]).length
    · simp only [paraChunksGo, if_pos h4] at hp
      cases hrest : paraChunksGo [] rest with
      | nil =>
        rw [hrest] at hp
        simp at hp
      | cons q qs =>
        rw [hrest] at hp
        have hd : ((cur ++ [s]) :: q :: qs).dropLast
            = (cur ++ [s]) :: (q :: qs).dropLast := rfl
        rw [hd] at hp
        rcases List.mem_cons.mp hp with h1 | h1
        · rw [h1]
          simp only [List.length_append, List.length_singleton] at h4 ⊢
          omega
        · rw [← hrest] at h1
          exact ih [] (by simp) p h1
    · simp only [paraChunksGo, if_neg h4] at hp
      refine ih _ ?_ p hp
      simp only [List.length_append, List.length_singleton] at h4 ⊢
      omega

/-! ## Lemmas about joining: the flat `rebuild` form of the output -/

theorem interc_cons_ne (sep x : List Char) (ys : List (List Char))
    (h : ys ≠ []) : interc sep (x :: ys) = x ++ sep ++ interc sep ys := by
  cases ys with
  | nil => exact absurd rfl h
  | cons y ys => rfl

theorem interc_append_singleton (sep : List Char) (xs : List (List Char))
    (x : List Char) (h : xs ≠ []) :
    interc sep (xs ++ [x]) = interc sep xs ++ sep ++ x := by
  induction xs with
  | nil => exact absurd rfl h
  | cons a xs ih =>
    cases xs with
    | nil => simp [interc]
    | cons b xs2 =>
      rw [List.cons_append, interc_cons_ne sep a _ (by simp),
        interc_cons_ne sep a _ (by simp), ih (by simp)]
      simp [List.append_assoc]

theorem joinSp_append_singleton (cur : List (List Char)) (s : List Char)
    (h : cur ≠ []) : joinSp (cur ++ [s]) = joinSp cur ++ [' '] ++ s := by
  simp only [joinSp]
  exact interc_append_singleton [' '] cur s h

theorem rebuildFrom_congr (rest : List (List Char)) :
    ∀ k j, k % 4 = j % 4 → rebuildFrom k rest = rebuildFrom j rest := by
  induction rest with
  | nil => intro k j _; rfl
  | cons p rest ih =>
    intro k j h
    simp only [rebuildFrom, h]
    rw [ih (k + 1) (j + 1) (by omega)]

theorem chunks_interc (rest : List (List Char)) :
    (∀ cur, cur ≠ [] → cur.length ≤ 3 →
      interc ['\n', '\n'] ((paraChunksGo cur rest).map joinSp)
        = joinSp cur ++ rebuildFrom cur.length rest)
    ∧ interc ['\n', '\n'] ((paraChunksGo ([] : List (List Char)) rest).map joinSp)
        = rebuild rest := by
  induction rest with
  | nil =>
    constructor
    · intro cur h1 _
      have hc : cur.isEmpty = false := by
        cases cur with
        | nil => exact absurd rfl h1
        | cons a l => rfl
      simp [paraChunksGo, hc, interc, rebuildFrom, rebuild]
    · simp [paraChunksGo, interc, rebuild]
  | cons s rest ih =>
    have main : ∀ cur, cur ≠ [] → cur.length ≤ 3 →
        interc ['\n', '\n'] ((paraChunksGo cur (s :: rest)).map joinSp)
          = joinSp cur ++ rebuildFrom cur.length (s :: rest) := by
      intro cur h1 h2
      have hlen : (cur ++ [s]).length = cur.length + 1 := by simp
      have hmod : cur.length % 4 = cur.length := by omega
      have hmodne : ¬cur.length % 4 = 0 := by
        have : 1 ≤ cur.length := List.length_pos.mpr h1
        omega
      by_cases h4 : 4 ≤ (cur ++ [s]).length
      · have hc3 : cur.length = 3 := by omega
        simp only [paraChunksGo, if_pos h4, List.map_cons, hc3]
        cases rest with
        | nil =>
          simp only [paraChunksGo, List.map_nil]
          rw [joinSp_append_singleton cur s h1]
          simp [interc, rebuildFrom]
        | cons s2 rest2 =>
          have hne : paraChunksGo ([] : List (List Char)) (s2 :: rest2) ≠ [] :=
            paraChunksGo_ne_nil _ _ (Or.inr (by simp))
          have hmapne : (paraChunksGo ([] : List (List Char))
              (s2 :: rest2)).map joinSp ≠ [] := by
            intro h0
            exact hne (List.map_eq_nil_iff.mp h0)
          rw [interc_cons_ne _ _ _ hmapne, ih.2]
          rw [joinSp_append_singleton cur s h1]
          have h5 : rebuildFrom 5 rest2 = rebuildFrom 1 rest2 :=
            rebuildFrom_congr rest2 5 1 (by omega)
          simp [rebuildFrom, rebuild, h5, List.append_assoc]
      · have hle : (cur ++ [s]).length ≤ 3 := by omega
        simp only [paraChunksGo, if_neg h4]
        rw [ih.1 (cur ++ [s]) (by simp) hle]
        rw [joinSp_append_singleton cur s h1, hlen]
        simp only [rebuildFrom, if_neg hmodne]
        simp [List.append_assoc]
    refine ⟨main, ?_⟩
    have h1 : ¬(4 : Nat) ≤ ([s] : List (List Char)).length := by simp
    simp only [paraChunksGo, List.nil_append, if_neg h1]
    rw [ih.1 [s] (by simp) (by simp)]
    simp [rebuild, joinSp, interc]

theorem joinParas_groupParas_eq_rebuild (ss : List (List Char)) :
    joinParas (groupParas ss) = rebuild ss := by
  rw [groupParas_eq_map_joinSp]
  exact (chunks_interc ss).2

/-! ## Lemmas about sentence segmentation -/

theorem splitGo_ne_nil (l : List Char) :
    ∀ m p cur, splitGo m p cur l ≠ [] := by
  induction l with
  | nil =>
    intro m p cur
    cases m <;> simp [splitGo]
  | cons c rest ih =>
    intro m p cur
    cases m
    · simp only [splitGo]
      by_cases hw : isWsChar c
      · rw [if_pos hw]
        by_cases hp : p
        · rw [if_pos hp]
          simp
        · rw [if_neg hp]
          exact ih _ _ _
      · rw [if_neg hw]
        exact ih _ _ _
    · simp only [splitGo]
      by_cases hw : isWsChar c
      · rw [if_pos hw]
        exact ih _ _ _
      · rw [if_neg hw]
        exact ih _ _ _

theorem splitSentences_ne_nil (l : List Char) : splitSentences l ≠ [] :=
  splitGo_ne_nil l false false []

/-! ## Small shape lemmas -/

theorem nine_shape (ss : List (List Char)) (h : ss.length = 9) :
    ∃ a b c d e f g hh i, ss = [a, b, c, d, e, f, g, hh, i] := by
  rcases ss with _ | ⟨a, _ | ⟨b, _ | ⟨c, _ | ⟨d, _ | ⟨e, _ | ⟨f, _ | ⟨g, _ |
    ⟨hh, _ | ⟨i, _ | ⟨j, tl⟩⟩⟩⟩⟩⟩⟩⟩⟩⟩ <;>
      simp only [List.length_cons, List.length_nil] at h
  all_goals first
    | omega
    | exact ⟨a, b, c, d, e, f, g, hh, i, rfl⟩

theorem groupParas_small (ss : List (List Char)) (h1 : ss ≠ [])
    (h2 : ss.length ≤ 3) : groupParas ss = [joinSp ss] := by
  rcases ss with _ | ⟨a, _ | ⟨b, _ | ⟨c, _ | ⟨d, tl⟩⟩⟩⟩
  · exact absurd rfl h1
  · rfl
  · rfl
  · rfl
  · simp only [List.length_cons] at h2
    omega

theorem paraChunks_nine (a b c d e f g hh i : List Char) :
    paraChunks [a, b, c, d, e, f, g, hh, i]
      = [[a, b, c, d], [e, f, g, hh], [i]] := rfl

theorem groupParas_nine (a b c d e f g hh i : List Char) :
    groupParas [a, b, c, d, e, f, g, hh, i]
      = [joinSp [a, b, c, d], joinSp [e, f, g, hh], joinSp [i]] := rfl

/-! ## Error taxonomy lemmas -/

theorem extract_error_valueError (url : List Char) (e : PyExc)
    (h : extract_video_id url = .error e) : ∃ m, e = .valueError m := by
  unfold extract_video_id at h
  cases h1 : searchP1 url with
  | some id => rw [h1] at h; simp at h
  | none =>
    rw [h1] at h
    cases h2 : searchP2 url with
    | some id => rw [h2] at h; simp at h
    | none =>
      rw [h2] at h
      cases h3 : matchP3 url with
      | some id => rw [h3] at h; simp at h
      | none =>
        rw [h3] at h
        simp only [Except.error.injEq] at h
        exact ⟨_, h.symm⟩

theorem get_transcript_error_valueError (r : FetchOutcome) (e : PyExc)
    (h : get_transcript r = .error e) : ∃ m, e = .valueError m := by
  cases r with
  | fetched frags => simp [get_transcript] at h
  | raised msg =>
    simp only [get_transcript] at h
    split_ifs at h <;>
      · simp only [Except.error.injEq] at h
        exact ⟨_, h.symm⟩

/-! ## Lemmas about the identifier extractor -/

theorem grabId_self : ∀ (l : List Char), (∀ c ∈ l, isIdChar c = true) →
    grabId l.length l = some l := by
  intro l
  induction l with
  | nil => intro _; rfl
  | cons c cs ih =>
    intro h
    simp only [List.length_cons, grabId, if_pos (h c (by simp))]
    rw [ih (fun x hx => h x (by simp [hx]))]
    rfl

theorem litMatch_drop : ∀ (pat l r : List Char), litMatch pat l = some r →
    r = l.drop pat.length := by
  intro pat
  induction pat with
  | nil =>
    intro l r h
    simp only [litMatch, Option.some.injEq] at h
    simp [h]
  | cons p ps ih =>
    intro l r h
    cases l with
    | nil => simp [litMatch] at h
    | cons c cs =>
      simp only [litMatch] at h
      by_cases hc : c = p
      · rw [if_pos hc] at h
        rw [ih cs r h]
        simp
      · rw [if_neg hc] at h
        simp at h

theorem grabId_isSome_has11 : ∀ (l : List Char) (k : Nat),
    (grabId 11 (l.drop k)).isSome = true → has11Run l = true := by
  intro l
  induction l with
  | nil =>
    intro k h
    rw [List.drop_nil] at h
    exact absurd h (by decide)
  | cons c cs ih =>
    intro k h
    cases k with
    | zero =>
      rw [List.drop_zero] at h
      simp [has11Run, h]
    | succ k2 =>
      rw [List.drop_succ_cons] at h
      simp [has11Run, ih k2 h]

theorem grabId_drop_none (l : List Char) (h : has11Run l = false) (k : Nat) :
    grabId 11 (l.drop k) = none := by
  cases hg : grabId 11 (l.drop k) with
  | none => rfl
  | some id =>
    exfalso
    have hs : (grabId 11 (l.drop k)).isSome = true := by rw [hg]; rfl
    rw [grabId_isSome_has11 l k hs] at h
    simp at h

theorem tryMatchP1_no11 (l : List Char) (h : has11Run l = false) :
    tryMatchP1 l = none := by
  unfold tryMatchP1
  cases h1 : litMatch "youtube.com/watch?v=".data l with
  | some r =>
    rw [litMatch_drop _ l r h1]
    exact grabId_drop_none l h _
  | none =>
    cases h2 : litMatch "youtu.be/".data l with
    | some r =>
      rw [litMatch_drop _ l r h2]
      exact grabId_drop_none l h _
    | none =>
      cases h3 : litMatch "youtube.com/embed/".data l with
      | some r =>
        rw [litMatch_drop _ l r h3]
        exact grabId_drop_none l h _
      | none => rfl

theorem tryMatchP2_no11 (l : List Char) (h : has11Run l = false) :
    tryMatchP2 l = none := by
  unfold tryMatchP2
  cases h1 : litMatch "youtube.com/shorts/".data l with
  | some r =>
    rw [litMatch_drop _ l r h1]
    exact grabId_drop_none l h _
  | none => rfl

theorem has11Run_tail (c : Char) (cs : List Char)
    (h : has11Run (c :: cs) = false) : has11Run cs = false := by
  simp only [has11Run, Bool.or_eq_false_iff] at h
  exact h.2

theorem searchP1_no11 : ∀ (l : List Char), has11Run l = false →
    searchP1 l = none := by
  intro l
  induction l with
  | nil => intro _; rfl
  | cons c cs ih =>
    intro h
    simp only [searchP1, tryMatchP1_no11 (c :: cs) h]
    exact ih (has11Run_tail c cs h)

theorem searchP2_no11 : ∀ (l : List Char), has11Run l = false →
    searchP2 l = none := by
  intro l
  induction l with
  | nil => intro _; rfl
  | cons c cs ih =>
    intro h
    simp only [searchP2, tryMatchP2_no11 (c :: cs) h]
    exact ih (has11Run_tail c cs h)

theorem matchP3_no11 (l : List Char) (h : has11Run l = false) :
    matchP3 l = none := by
  unfold matchP3
  have h0 : grabId 11 l = none := by
    have := grabId_drop_none l h 0
    rwa [List.drop_zero] at this
  rw [h0]

theorem litMatch_nonid : ∀ (pat : List Char),
    (∃ p ∈ pat, isIdChar p = false) →
    ∀ l, (∀ c ∈ l, isIdChar c = true) → litMatch pat l = none := by
  intro pat
  induction pat with
  | nil =>
    rintro ⟨p, hp, _⟩
    simp at hp
  | cons p ps ih =>
    rintro ⟨q, hq, hqbad⟩ l hl
    cases l with
    | nil => rfl
    | cons c cs =>
      simp only [litMatch]
      by_cases hc : c = p
      · rw [if_pos hc]
        rcases List.mem_cons.mp hq with h | h
        · exfalso
          rw [h, ← hc, hl c (by simp)] at hqbad
          simp at hqbad
        · exact ih ⟨q, h, hqbad⟩ cs (fun x hx => hl x (by simp [hx]))
      · rw [if_neg hc]

theorem tryMatchP1_allid (l : List Char) (h : ∀ c ∈ l, isIdChar c = true) :
    tryMatchP1 l = none := by
  unfold tryMatchP1
  rw [litMatch_nonid "youtube.com/watch?v=".data ⟨'.', by decide, by decide⟩ l h,
    litMatch_nonid "youtu.be/".data ⟨'.', by decide, by decide⟩ l h,
    litMatch_nonid "youtube.com/embed/".data ⟨'.', by decide, by decide⟩ l h]

theorem tryMatchP2_allid (l : List Char) (h : ∀ c ∈ l, isIdChar c = true) :
    tryMatchP2 l = none := by
  unfold tryMatchP2
  rw [litMatch_nonid "youtube.com/shorts/".data ⟨'.', by decide, by decide⟩ l h]

theorem searchP1_allid : ∀ (l : List Char), (∀ c ∈ l, isIdChar c = true) →
    searchP1 l = none := by
  intro l
  induction l with
  | nil => intro _; rfl
  | cons c cs ih =>
    intro h
    simp only [searchP1, tryMatchP1_allid (c :: cs) h]
    exact ih (fun x hx => h x (by simp [hx]))

theorem searchP2_allid : ∀ (l : List Char), (∀ c ∈ l, isIdChar c = true) →
    searchP2 l = none := by
  intro l
  induction l with
  | nil => intro _; rfl
  | cons c cs ih =>
    intro h
    simp only [searchP2, tryMatchP2_allid (c :: cs) h]
    exact ih (fun x hx => h x (by simp [hx]))

theorem searchP1_watch (id : List Char) (hg : grabId 11 id = some id) :
    searchP1 ("https://youtube.com/watch?v=".data ++ id) = some id := by
  have e : searchP1 ("https://youtube.com/watch?v=".data ++ id)
      = match tryMatchP1 ("youtube.com/watch?v=".data ++ id) with
        | some r => some r
        | none => searchP1 ("outube.com/watch?v=".data ++ id) := rfl
  have e2 : tryMatchP1 ("youtube.com/watch?v=".data ++ id) = grabId 11 id := rfl
  rw [e, e2, hg]

theorem searchP1_short (id : List Char) (hg : grabId 11 id = some id) :
    searchP1 ("https://youtu.be/".data ++ id) = some id := by
  have e : searchP1 ("https://youtu.be/".data ++ id)
      = match tryMatchP1 ("youtu.be/".data ++ id) with
        | some r => some r
        | none => searchP1 ("outu.be/".data ++ id) := rfl
  have e2 : tryMatchP1 ("youtu.be/".data ++ id) = grabId 11 id := rfl
  rw [e, e2, hg]

theorem searchP1_embed (id : List Char) (hg : grabId 11 id = some id) :
    searchP1 ("https://youtube.com/embed/".data ++ id) = some id := by
  have e : searchP1 ("https://youtube.com/embed/".data ++ id)
      = match tryMatchP1 ("youtube.com/embed/".data ++ id) with
        | some r => some r
        | none => searchP1 ("outube.com/embed/".data ++ id) := rfl
  have e2 : tryMatchP1 ("youtube.com/embed/".data ++ id) = grabId 11 id := rfl
  rw [e, e2, hg]

theorem searchP1_shorts_none (id : List Char)
    (h : ∀ c ∈ id, isIdChar c = true) :
    searchP1 ("https://youtube.com/shorts/".data ++ id) = none := by
  have e : searchP1 ("https://youtube.com/shorts/".data ++ id)
      = searchP1 id := rfl
  rw [e]
  exact searchP1_allid id h

theorem searchP2_shorts (id : List Char) (hg : grabId 11 id = some id) :
    searchP2 ("https://youtube.com/shorts/".data ++ id) = some id := by
  have e : searchP2 ("https://youtube.com/shorts/".data ++ id)
      = match tryMatchP2 ("youtube.com/shorts/".data ++ id) with
        | some r => some r
        | none => searchP2 ("outube.com/shorts/".data ++ id) := rfl
  have e2 : tryMatchP2 ("youtube.com/shorts/".data ++ id) = grabId 11 id := rfl
  rw [e, e2, hg]

/-! ## Claim theorems (part 1) -/

/-- Claim C1, counterexample: on the fragment sequence of the scenario, the
code does not return the output claimed by the spec.  The code removes only
the filler words themselves, so the comma after `Um` and the commas around
`like` survive, and the space before each orphaned comma is removed. -/
theorem C1_counterexample :
    clean_transcript [⟨"Um, I think".data, 0, 0⟩,
        ⟨"this is, like, great.".data, 0, 0⟩]
      ≠ "I think this is, great.".data := by decide

/-- Claim C1, amended: the fragments concatenate to
`Um, I think this is, like, great.` and the cleaned single-paragraph output
is `, I think this is,, great.` (punctuation adjacent to removed fillers
survives, with the space before each orphaned comma removed). -/
theorem C1_theorem :
    interc [' '] ["Um, I think".data, "this is, like, great.".data]
        = "Um, I think this is, like, great.".data
    ∧ clean_transcript [⟨"Um, I think".data, 0, 0⟩,
          ⟨"this is, like, great.".data, 0, 0⟩]
        = ", I think this is,, great.".data :=
  ⟨rfl, rfl⟩

/-- Claim C2, counterexample: the flat-string entry point performs no filler
removal, so it does not agree with the fragment entry point on `um hello`. -/
theorem C2_counterexample :
    format_transcript "um hello".data
      ≠ clean_transcript [⟨"um hello".data, 0, 0⟩] := by decide

/-- Claim C2, amended: the two entry points share sentence segmentation and
paragraph grouping, but `format_transcript` omits filler removal, whitespace
collapse and the punctuation fix; the claimed equality holds exactly when
the input is already a fixed point of those omitted steps. -/
theorem C2_theorem (s : List Char) (h1 : fillerSub s = s)
    (h2 : collapseWs s = s) (h3 : pyStrip s = s) (h4 : punctFix s = s) :
    format_transcript s = clean_transcript [⟨s, 0, 0⟩] := by
  show joinParas (groupParas (splitSentences (pyStrip s))) = cleanText s
  unfold cleanText
  rw [h1, h2, h3, h4]

/-- Witness for the amended claim C2 at a concrete normalized input. -/
theorem C2_witness :
    fillerSub "Hi there. Go now.".data = "Hi there. Go now.".data
    ∧ format_transcript "Hi there. Go now.".data
        = clean_transcript [⟨"Hi there. Go now.".data, 0, 0⟩] :=
  ⟨by decide, C2_theorem "Hi there. Go now.".data (by decide) (by decide)
    (by decide) (by decide)⟩

/-- Claim C9, counterexample: on `I actually actuality like this` the code
does not produce `actuality this`; the word `I` is not in the filler lexicon
and survives. -/
theorem C9_counterexample :
    pyStrip (collapseWs (fillerSub "I actually actuality like this".data))
      ≠ "actuality this".data := by decide

/-- Claim C9, amended: filler removal matches whole words only; on
`I actually actuality like this` the result after whitespace collapse is
`I actuality this` (the non-filler words `I` and `actuality` survive, the
standalone fillers `actually` and `like` are removed), and an embedded
occurrence as in `unlike` is untouched. -/
theorem C9_theorem :
    pyStrip (collapseWs (fillerSub "I actually actuality like this".data))
        = "I actuality this".data
    ∧ fillerSub "unlike".data = "unlike".data :=
  ⟨rfl, rfl⟩

/-- Claim C4, counterexample: the bare-identifier pattern is anchored to the
untrimmed input, so an input that is a valid identifier surrounded by
whitespace is rejected rather than trimmed and accepted. -/
theorem C4_counterexample :
    extract_video_id " dQw4w9WgXcQ".data
      = .error (.valueError ("Could not extract video ID from URL: ".data
          ++ " dQw4w9WgXcQ".data)) := rfl

/-- Claim C4, amended: for the watch, short, embed and shorts URL shapes
with an embedded valid 11-character identifier, and for an input that is
exactly a bare valid identifier (untrimmed), `extract_video_id` returns
that identifier. -/
theorem C4_theorem (id : List Char) (h1 : id.length = 11)
    (h2 : ∀ c ∈ id, isIdChar c = true) :
    extract_video_id ("https://youtube.com/watch?v=".data ++ id) = .ok id
    ∧ extract_video_id ("https://youtu.be/".data ++ id) = .ok id
    ∧ extract_video_id ("https://youtube.com/embed/".data ++ id) = .ok id
    ∧ extract_video_id ("https://youtube.com/shorts/".data ++ id) = .ok id
    ∧ extract_video_id id = .ok id := by
  have hg : grabId 11 id = some id := by
    have h0 := grabId_self id h2
    rwa [h1] at h0
  refine ⟨?_, ?_, ?_, ?_, ?_⟩
  · unfold extract_video_id
    rw [searchP1_watch id hg]
  · unfold extract_video_id
    rw [searchP1_short id hg]
  · unfold extract_video_id
    rw [searchP1_embed id hg]
  · unfold extract_video_id
    rw [searchP1_shorts_none id h2, searchP2_shorts id hg]
  · unfold extract_video_id
    rw [searchP1_allid id h2, searchP2_allid id h2]
    unfold matchP3
    rw [hg]
    have hd : id.drop 11 = [] := by
      apply List.drop_eq_nil_of_le
      omega
    rw [hd]
    rfl

/-- Witness for the amended claim C4 at the identifier of the spec
examples. -/
theorem C4_witness :
    ("dQw4w9WgXcQ".data.length = 11
      ∧ ∀ c ∈ "dQw4w9WgXcQ".data, isIdChar c = true)
    ∧ (extract_video_id
          ("https://youtube.com/watch?v=".data ++ "dQw4w9WgXcQ".data)
        = .ok "dQw4w9WgXcQ".data
      ∧ extract_video_id ("https://youtu.be/".data ++ "dQw4w9WgXcQ".data)
        = .ok "dQw4w9WgXcQ".data
      ∧ extract_video_id
          ("https://youtube.com/embed/".data ++ "dQw4w9WgXcQ".data)
        = .ok "dQw4w9WgXcQ".data
      ∧ extract_video_id
          ("https://youtube.com/shorts/".data ++ "dQw4w9WgXcQ".data)
        = .ok "dQw4w9WgXcQ".data
      ∧ extract_video_id "dQw4w9WgXcQ".data = .ok "dQw4w9WgXcQ".data) :=
  ⟨⟨by decide, by decide⟩,
    C4_theorem "dQw4w9WgXcQ".data (by decide) (by decide)⟩

/-- Claim C5, amended: for any input string containing no run of 11
consecutive identifier-alphabet characters, extraction fails with a
`ValueError` carrying the original input. -/
theorem C5_theorem (url : List Char) (h : has11Run url = false) :
    extract_video_id url
      = .error (.valueError ("Could not extract video ID from URL: ".data
          ++ url)) := by
  unfold extract_video_id
  rw [searchP1_no11 url h, searchP2_no11 url h, matchP3_no11 url h]

/-- Witness for the amended claim C5 at a URL whose candidate token is too
short. -/
theorem C5_witness :
    has11Run "https://youtube.com/watch?v=short".data = false
    ∧ extract_video_id "https://youtube.com/watch?v=short".data
        = .error (.valueError ("Could not extract video ID from URL: ".data
            ++ "https://youtube.com/watch?v=short".data)) :=
  ⟨by decide, C5_theorem "https://youtube.com/watch?v=short".data (by decide)⟩

/-- Claim C5, counterexample: a candidate token of length 12 after
`watch?v=` does not cause failure; the match takes its first 11 characters
and extraction succeeds. -/
theorem C5_counterexample :
    extract_video_id "youtube.com/watch?v=abcdefghijkl".data
      = .ok "abcdefghijk".data := rfl

/-- Claim C6, counterexample: an unexpected fetch failure (neither disabled
nor not-found) is wrapped in a `ValueError` by `get_transcript`, and
`process_video` therefore surfaces it as 400, not as a 5xx status. -/
theorem C6_counterexample :
    processStatus (fun _ => .raised "connection reset by peer".data)
        "dQw4w9WgXcQ".data = 400
    ∧ get_transcript (.raised "connection reset by peer".data)
        = .error (.valueError ("Failed to fetch transcript: ".data
            ++ "connection reset by peer".data)) :=
  ⟨rfl, rfl⟩

/-- Claim C6, amended: every pipeline failure, including unexpected fetch
failures, is raised as a `ValueError` and mapped by `process_video` to a
400 status; the upstream failure classes are not distinguishable by status
class, only by message text. -/
theorem C6_theorem (fetch : List Char → FetchOutcome) (url : List Char)
    (e : PyExc) (h : get_clean_transcript fetch url = .error e) :
    statusOf e = 400 := by
  unfold get_clean_transcript at h
  split at h
  next e1 hx =>
    simp only [Except.error.injEq] at h
    obtain ⟨m, hm⟩ := extract_error_valueError url e1 hx
    rw [← h, hm]
    rfl
  next vid hx =>
    split at h
    next e2 hg =>
      simp only [Except.error.injEq] at h
      obtain ⟨m, hm⟩ := get_transcript_error_valueError _ e2 hg
      rw [← h, hm]
      rfl
    next frags hg => simp at h

/-- Witness for the amended claim C6 at a concrete failing fetch. -/
theorem C6_witness :
    get_clean_transcript (fun _ => .raised "boom".data) "dQw4w9WgXcQ".data
        = .error (.valueError ("Failed to fetch transcript: ".data
            ++ "boom".data))
    ∧ statusOf (.valueError ("Failed to fetch transcript: ".data
        ++ "boom".data)) = 400 :=
  ⟨rfl, C6_theorem (fun _ => .raised "boom".data) "dQw4w9WgXcQ".data _ rfl⟩

/-- Claim C7: a 9-sentence segmentation is grouped into exactly 3 paragraphs
with sentence counts 4, 4, 1, sentences joined by single spaces inside a
paragraph and paragraphs separated by two newline characters; a
segmentation into at most 3 sentences yields exactly one paragraph. -/
theorem C7_theorem (t9 t3 : List Char)
    (h9 : (splitSentences t9).length = 9)
    (h3 : (splitSentences t3).length ≤ 3) :
    ((paraChunks (splitSentences t9)).map List.length = [4, 4, 1]
      ∧ groupParas (splitSentences t9)
          = [joinSp ((splitSentences t9).take 4),
             joinSp (((splitSentences t9).drop 4).take 4),
             joinSp ((splitSentences t9).drop 8)]
      ∧ joinParas (groupParas (splitSentences t9))
          = joinSp ((splitSentences t9).take 4) ++ ['\n', '\n']
              ++ (joinSp (((splitSentences t9).drop 4).take 4) ++ ['\n', '\n']
              ++ joinSp ((splitSentences t9).drop 8)))
    ∧ groupParas (splitSentences t3) = [joinSp (splitSentences t3)] := by
  obtain ⟨a, b, c, d, e, f, g, hh, i, hss⟩ := nine_shape _ h9
  rw [hss]
  exact ⟨⟨rfl, rfl, rfl⟩,
    groupParas_small _ (splitSentences_ne_nil t3) h3⟩

/-- Witness for claim C7 at concrete 9-sentence and 2-sentence inputs. -/
theorem C7_witness :
    (splitSentences "a. b! c? d. e. f. g. h. i.".data).length = 9
    ∧ (splitSentences "x. y.".data).length ≤ 3
    ∧ (((paraChunks (splitSentences "a. b! c? d. e. f. g. h. i.".data)).map
          List.length = [4, 4, 1]
        ∧ groupParas (splitSentences "a. b! c? d. e. f. g. h. i.".data)
            = [joinSp ((splitSentences "a. b! c? d. e. f. g. h. i.".data).take 4),
               joinSp (((splitSentences "a. b! c? d. e. f. g. h. i.".data).drop 4).take 4),
               joinSp ((splitSentences "a. b! c? d. e. f. g. h. i.".data).drop 8)]
        ∧ joinParas (groupParas (splitSentences "a. b! c? d. e. f. g. h. i.".data))
            = joinSp ((splitSentences "a. b! c? d. e. f. g. h. i.".data).take 4)
                ++ ['\n', '\n']
                ++ (joinSp (((splitSentences "a. b! c? d. e. f. g. h. i.".data).drop 4).take 4)
                ++ ['\n', '\n']
                ++ joinSp ((splitSentences "a. b! c? d. e. f. g. h. i.".data).drop 8)))
       ∧ groupParas (splitSentences "x. y.".data)
           = [joinSp (splitSentences "x. y.".data)]) :=
  ⟨by decide, by decide,
    C7_theorem "a. b! c? d. e. f. g. h. i.".data "x. y.".data
      (by decide) (by decide)⟩

/-- Claim C10: paragraph grouping neither alters, drops, duplicates nor
reorders sentences: the concatenation of the paragraph chunks is exactly
the segmentation, every chunk except possibly the last has exactly 4
sentences, every chunk has between 1 and 4, and the grouped output is the
space-join of each chunk. -/
theorem C10_theorem (t : List Char) :
    (paraChunks (splitSentences t)).flatten = splitSentences t
    ∧ ((paraChunks (splitSentences t)).dropLast.all
        fun p => p.length == 4) = true
    ∧ ((paraChunks (splitSentences t)).all
        fun p => decide (1 ≤ p.length) && decide (p.length ≤ 4)) = true
    ∧ groupParas (splitSentences t)
        = (paraChunks (splitSentences t)).map joinSp := by
  refine ⟨?_, ?_, ?_, groupParas_eq_map_joinSp _⟩
  · simpa using paraChunksGo_flatten (splitSentences t) []
  · rw [List.all_eq_true]
    intro p hp
    simpa using paraChunksGo_dropLast (splitSentences t) [] (by simp) p hp
  · rw [List.all_eq_true]
    intro p hp
    have hb := paraChunksGo_bounds (splitSentences t) [] (by simp) p hp
    simp [hb.1, hb.2]
/-! ## Toolkit: cons and append equations for the scanners -/

theorem allSp_cons (c : Char) (l : List Char) :
    allSp (c :: l) = ((!isWsChar c || c = ' ') && allSp l) := rfl

theorem noWW_cons (p : Bool) (c : Char) (l : List Char) :
    noWW p (c :: l) = (!(p && isWsChar c) && noWW (isWsChar c) l) := rfl

theorem noWP_cons (p : Bool) (c : Char) (l : List Char) :
    noWP p (c :: l) = (!(p && isPunctChar c) && noWP (isWsChar c) l) := rfl

theorem noSentWs_cons (p : Bool) (c : Char) (l : List Char) :
    noSentWs p (c :: l)
      = (!(p && isWsChar c) && noSentWs (isSentPunct c) l) := rfl

theorem endWs_cons (p : Bool) (c : Char) (l : List Char) :
    endWs p (c :: l) = endWs (isWsChar c) l := rfl

theorem endSent_cons (p : Bool) (c : Char) (l : List Char) :
    endSent p (c :: l) = endSent (isSentPunct c) l := rfl

theorem endWs_append (a : List Char) :
    ∀ (p : Bool) (b : List Char), endWs p (a ++ b) = endWs (endWs p a) b := by
  induction a with
  | nil => intro p b; rfl
  | cons c cs ih =>
    intro p b
    rw [List.cons_append, endWs_cons, endWs_cons, ih]

theorem endSent_append (a : List Char) :
    ∀ (p : Bool) (b : List Char),
      endSent p (a ++ b) = endSent (endSent p a) b := by
  induction a with
  | nil => intro p b; rfl
  | cons c cs ih =>
    intro p b
    rw [List.cons_append, endSent_cons, endSent_cons, ih]

theorem noWW_append (a : List Char) :
    ∀ (p : Bool) (b : List Char),
      noWW p (a ++ b) = (noWW p a && noWW (endWs p a) b) := by
  induction a with
  | nil => intro p b; simp [noWW, endWs]
  | cons c cs ih =>
    intro p b
    rw [List.cons_append, noWW_cons, noWW_cons, ih, endWs_cons,
      Bool.and_assoc]

theorem noWP_append (a : List Char) :
    ∀ (p : Bool) (b : List Char),
      noWP p (a ++ b) = (noWP p a && noWP (endWs p a) b) := by
  induction a with
  | nil => intro p b; simp [noWP, endWs]
  | cons c cs ih =>
    intro p b
    rw [List.cons_append, noWP_cons, noWP_cons, ih, endWs_cons,
      Bool.and_assoc]

theorem noSentWs_append (a : List Char) :
    ∀ (p : Bool) (b : List Char),
      noSentWs p (a ++ b) = (noSentWs p a && noSentWs (endSent p a) b) := by
  induction a with
  | nil => intro p b; simp [noSentWs, endSent]
  | cons c cs ih =>
    intro p b
    rw [List.cons_append, noSentWs_cons, noSentWs_cons, ih, endSent_cons,
      Bool.and_assoc]

theorem endWs_ne_nil (l : List Char) (h : l ≠ []) (p q : Bool) :
    endWs p l = endWs q l := by
  cases l with
  | nil => exact absurd rfl h
  | cons c cs => rfl

theorem endSent_ne_nil (l : List Char) (h : l ≠ []) (p q : Bool) :
    endSent p l = endSent q l := by
  cases l with
  | nil => exact absurd rfl h
  | cons c cs => rfl

theorem noWW_of_true (l : List Char) (h : noWW true l = true) :
    noWW false l = true := by
  cases l with
  | nil => rfl
  | cons c cs =>
    rw [noWW_cons] at h ⊢
    simp only [Bool.and_eq_true] at h ⊢
    exact ⟨by simp, h.2⟩

theorem noWW_true_of_headNonWs (l : List Char) (hh : headNonWs l = true)
    (h : noWW false l = true) : noWW true l = true := by
  cases l with
  | nil => rfl
  | cons c cs =>
    simp only [headNonWs, Bool.not_eq_true'] at hh
    rw [noWW_cons] at h ⊢
    simp only [Bool.and_eq_true] at h ⊢
    exact ⟨by simp [hh], h.2⟩

theorem noWW_headNonWs (l : List Char) (h : noWW true l = true) :
    headNonWs l = true := by
  cases l with
  | nil => rfl
  | cons c cs =>
    rw [noWW_cons] at h
    simp only [Bool.and_eq_true, Bool.not_eq_true', Bool.true_and] at h
    simp [headNonWs, h.1]

theorem noWP_of_true (l : List Char) (h : noWP true l = true) :
    noWP false l = true := by
  cases l with
  | nil => rfl
  | cons c cs =>
    rw [noWP_cons] at h ⊢
    simp only [Bool.and_eq_true] at h ⊢
    exact ⟨by simp, h.2⟩

theorem noWP_true_of_headNonPunct (l : List Char)
    (hh : headNonPunct l = true) (h : noWP false l = true) :
    noWP true l = true := by
  cases l with
  | nil => rfl
  | cons c cs =>
    simp only [headNonPunct, Bool.not_eq_true'] at hh
    rw [noWP_cons] at h ⊢
    simp only [Bool.and_eq_true] at h ⊢
    exact ⟨by simp [hh], h.2⟩

theorem noWP_headNonPunct (l : List Char) (h : noWP true l = true) :
    headNonPunct l = true := by
  cases l with
  | nil => rfl
  | cons c cs =>
    rw [noWP_cons] at h
    simp only [Bool.and_eq_true, Bool.not_eq_true', Bool.true_and] at h
    simp [headNonPunct, h.1]

/-! ## Stage A: whitespace collapse produces single interior spaces -/

theorem collapseGo_spec (w : List Char) :
    allSp (collapseGo false w) = true
    ∧ noWW false (collapseGo false w) = true
    ∧ allSp (collapseGo true w) = true
    ∧ noWW false (collapseGo true w) = true
    ∧ headNonWs (collapseGo true w) = true := by
  induction w with
  | nil => exact ⟨rfl, rfl, rfl, rfl, rfl⟩
  | cons c cs ih =>
    obtain ⟨a1, a2, a3, a4, a5⟩ := ih
    cases hw : isWsChar c
    · have e1 : collapseGo false (c :: cs) = c :: collapseGo false cs := by
        simp [collapseGo, hw]
      have e2 : collapseGo true (c :: cs) = c :: collapseGo false cs := by
        simp [collapseGo, hw]
      have hsp : allSp (c :: collapseGo false cs) = true := by
        rw [allSp_cons]
        simp only [Bool.and_eq_true]
        exact ⟨by simp [hw], a1⟩
      have hww : noWW false (c :: collapseGo false cs) = true := by
        rw [noWW_cons, hw]
        simp only [Bool.and_eq_true]
        exact ⟨by simp, a2⟩
      refine ⟨by rw [e1]; exact hsp, by rw [e1]; exact hww,
        by rw [e2]; exact hsp, by rw [e2]; exact hww, ?_⟩
      rw [e2]
      simp [headNonWs, hw]
    · have e1 : collapseGo false (c :: cs) = ' ' :: collapseGo true cs := by
        simp [collapseGo, hw]
      have e2 : collapseGo true (c :: cs) = collapseGo true cs := by
        simp [collapseGo, hw]
      refine ⟨?_, ?_, by rw [e2]; exact a3, by rw [e2]; exact a4,
        by rw [e2]; exact a5⟩
      · rw [e1, allSp_cons]
        simp only [Bool.and_eq_true]
        exact ⟨by decide, a3⟩
      · rw [e1, noWW_cons]
        simp only [Bool.and_eq_true]
        exact ⟨by simp, noWW_true_of_headNonWs _ a5 a4⟩

theorem collapseWs_allSp (w : List Char) : allSp (collapseWs w) = true :=
  (collapseGo_spec w).1

theorem collapseWs_noWW (w : List Char) : noWW false (collapseWs w) = true :=
  (collapseGo_spec w).2.1

/-! ## Stage B: strip removes edge whitespace and preserves the rest -/

theorem stripL_headNonWs (l : List Char) : headNonWs (stripL l) = true := by
  induction l with
  | nil => rfl
  | cons c cs ih =>
    cases hw : isWsChar c
    · simp only [stripL, List.dropWhile_cons, hw, Bool.false_eq_true, if_false]
      simp [headNonWs, hw]
    · simp only [stripL, List.dropWhile_cons, hw, if_true]
      exact ih

theorem stripL_allSp (l : List Char) (h : allSp l = true) :
    allSp (stripL l) = true := by
  induction l with
  | nil => rfl
  | cons c cs ih =>
    rw [allSp_cons] at h
    simp only [Bool.and_eq_true] at h
    cases hw : isWsChar c
    · simp only [stripL, List.dropWhile_cons, hw, Bool.false_eq_true, if_false]
      rw [allSp_cons]
      simp only [Bool.and_eq_true]
      exact ⟨h.1, h.2⟩
    · simp only [stripL, List.dropWhile_cons, hw, if_true]
      exact ih h.2

theorem stripL_noWW (l : List Char) (h : noWW false l = true) :
    noWW false (stripL l) = true := by
  induction l with
  | nil => rfl
  | cons c cs ih =>
    rw [noWW_cons] at h
    simp only [Bool.and_eq_true] at h
    cases hw : isWsChar c
    · simp only [stripL, List.dropWhile_cons, hw, Bool.false_eq_true, if_false]
      rw [noWW_cons, hw]
      simp only [Bool.and_eq_true]
      rw [hw] at h
      exact ⟨by simp, h.2⟩
    · simp only [stripL, List.dropWhile_cons, hw, if_true]
      rw [hw] at h
      exact ih (noWW_of_true cs h.2)

theorem stripR_cons_eq (c : Char) (rest : List Char) :
    stripR (c :: rest)
      = match stripR rest with
        | [] => if isWsChar c then [] else [c]
        | r => c :: r := rfl

theorem stripR_allSp (l : List Char) (h : allSp l = true) :
    allSp (stripR l) = true := by
  induction l with
  | nil => rfl
  | cons c cs ih =>
    rw [allSp_cons] at h
    simp only [Bool.and_eq_true] at h
    rw [stripR_cons_eq]
    cases hr : stripR cs with
    | nil =>
      cases hw : isWsChar c
      · show allSp [c] = true
        rw [allSp_cons]
        simp only [Bool.and_eq_true]
        exact ⟨h.1, rfl⟩
      · rfl
    | cons d ds =>
      show allSp (c :: d :: ds) = true
      rw [allSp_cons]
      simp only [Bool.and_eq_true]
      exact ⟨h.1, by rw [← hr]; exact ih h.2⟩

theorem stripR_noWW (l : List Char) : ∀ (b : Bool), noWW b l = true →
    noWW b (stripR l) = true := by
  induction l with
  | nil => intro b _; rfl
  | cons c cs ih =>
    intro b h
    rw [noWW_cons] at h
    simp only [Bool.and_eq_true] at h
    rw [stripR_cons_eq]
    cases hr : stripR cs with
    | nil =>
      cases hw : isWsChar c
      · show noWW b [c] = true
        rw [noWW_cons, hw]
        simp only [Bool.and_eq_true]
        exact ⟨by simp, rfl⟩
      · rfl
    | cons d ds =>
      show noWW b (c :: d :: ds) = true
      rw [noWW_cons]
      simp only [Bool.and_eq_true]
      refine ⟨h.1, ?_⟩
      rw [← hr]
      exact ih (isWsChar c) h.2

theorem stripR_endWs (l : List Char) : endWs false (stripR l) = false := by
  induction l with
  | nil => rfl
  | cons c cs ih =>
    rw [stripR_cons_eq]
    cases hr : stripR cs with
    | nil =>
      cases hw : isWsChar c
      · show endWs false [c] = false
        rw [endWs_cons, hw]
        rfl
      · rfl
    | cons d ds =>
      show endWs false (c :: d :: ds) = false
      rw [endWs_cons, endWs_ne_nil (d :: ds) (by simp) (isWsChar c) false,
        ← hr]
      exact ih

theorem stripR_headNonWs (l : List Char) (h : headNonWs l = true) :
    headNonWs (stripR l) = true := by
  cases l with
  | nil => rfl
  | cons c cs =>
    rw [stripR_cons_eq]
    cases hr : stripR cs with
    | nil =>
      cases hw : isWsChar c
      · show headNonWs [c] = true
        simp [headNonWs, hw]
      · rfl
    | cons d ds =>
      show headNonWs (c :: d :: ds) = true
      simp only [headNonWs] at h ⊢
      exact h

theorem pyStrip_spec (u : List Char) (ha : allSp u = true)
    (hw : noWW false u = true) :
    allSp (pyStrip u) = true ∧ noWW false (pyStrip u) = true
    ∧ headNonWs (pyStrip u) = true ∧ endWs false (pyStrip u) = false :=
  ⟨stripR_allSp _ (stripL_allSp u ha),
    stripR_noWW _ false (stripL_noWW u hw),
    stripR_headNonWs _ (stripL_headNonWs u),
    stripR_endWs _⟩

/-! ## Stage C: the punctuation fix and its invariants -/

theorem punctGo_spec (l : List Char) :
    ∀ (pend : List Char),
      (pend = [] ∨ (pend = [' '] ∧ headNonWs l = true)) →
      allSp l = true →
      noWW (!pend.isEmpty) l = true →
      endWs (!pend.isEmpty) l = false →
      allSp (punctGo pend l) = true
      ∧ noWW false (punctGo pend l) = true
      ∧ noWP false (punctGo pend l) = true
      ∧ endWs false (punctGo pend l) = false
      ∧ (pend = [] → headNonWs l = true →
          headNonWs (punctGo pend l) = true) := by
  induction l with
  | nil =>
    intro pend hp _ _ he
    have hpe : pend = [] := by
      cases pend with
      | nil => rfl
      | cons x xs => simp [endWs] at he
    subst hpe
    exact ⟨rfl, rfl, rfl, rfl, fun _ _ => rfl⟩
  | cons c rest ih =>
    intro pend hp ha hw he
    rw [allSp_cons] at ha
    simp only [Bool.and_eq_true] at ha
    rw [noWW_cons] at hw
    simp only [Bool.and_eq_true] at hw
    rw [endWs_cons] at he
    cases hws : isWsChar c
    · rw [hws] at hw he
      obtain ⟨o1, o2, o3, o4, o5⟩ := ih [] (Or.inl rfl) ha.2 hw.2 he
      cases hpc : isPunctChar c
      · have e : punctGo pend (c :: rest)
            = pend.reverse ++ c :: punctGo [] rest := by
          simp [punctGo, hws, hpc]
        rcases hp with hp | ⟨hp, _⟩
        · subst hp
          rw [e]
          simp only [List.reverse_nil, List.nil_append]
          refine ⟨?_, ?_, ?_, ?_, ?_⟩
          · rw [allSp_cons]
            simp only [Bool.and_eq_true]
            exact ⟨ha.1, o1⟩
          · rw [noWW_cons, hws]
            simp only [Bool.and_eq_true]
            exact ⟨by simp, o2⟩
          · rw [noWP_cons, hws]
            simp only [Bool.and_eq_true]
            exact ⟨by simp, o3⟩
          · rw [endWs_cons, hws]
            exact o4
          · intro _ _
            simp [headNonWs, hws]
        · subst hp
          rw [e]
          show allSp (' ' :: c :: punctGo [] rest) = true
            ∧ noWW false (' ' :: c :: punctGo [] rest) = true
            ∧ noWP false (' ' :: c :: punctGo [] rest) = true
            ∧ endWs false (' ' :: c :: punctGo [] rest) = false
            ∧ ([' '] = [] → headNonWs (c :: rest) = true →
                headNonWs (' ' :: c :: punctGo [] rest) = true)
          refine ⟨?_, ?_, ?_, ?_, ?_⟩
          · rw [allSp_cons, allSp_cons]
            simp only [Bool.and_eq_true]
            exact ⟨by decide, ha.1, o1⟩
          · rw [noWW_cons, noWW_cons, hws]
            simp only [Bool.and_eq_true]
            refine ⟨by simp, ?_, o2⟩
            have h6 : isWsChar ' ' = true := by decide
            rw [h6]
            simp
          · rw [noWP_cons, noWP_cons, hws]
            simp only [Bool.and_eq_true]
            refine ⟨by simp, ?_, o3⟩
            have h6 : isWsChar ' ' = true := by decide
            rw [h6, hpc]
            simp
          · rw [endWs_cons, endWs_cons, hws]
            exact o4
          · intro h5
            exact absurd h5 (by simp)
      · have e : punctGo pend (c :: rest) = c :: punctGo [] rest := by
          simp [punctGo, hws, hpc]
        rw [e]
        refine ⟨?_, ?_, ?_, ?_, ?_⟩
        · rw [allSp_cons]
          simp only [Bool.and_eq_true]
          exact ⟨ha.1, o1⟩
        · rw [noWW_cons, hws]
          simp only [Bool.and_eq_true]
          exact ⟨by simp, o2⟩
        · rw [noWP_cons, hws]
          simp only [Bool.and_eq_true]
          exact ⟨by simp, o3⟩
        · rw [endWs_cons, hws]
          exact o4
        · intro _ _
          simp [headNonWs, hws]
    · have hpe : pend = [] := by
        rcases hp with hp | ⟨hp, _⟩
        · exact hp
        · subst hp
          rw [hws] at hw
          have h1 := hw.1
          simp at h1
      subst hpe
      have hc : c = ' ' := by
        have h1 := ha.1
        rw [hws] at h1
        simp at h1
        exact h1
      have e : punctGo [] (c :: rest) = punctGo [c] rest := by
        simp [punctGo, hws]
      rw [e]
      have hhr : headNonWs rest = true := by
        apply noWW_headNonWs
        rw [hws] at hw
        exact hw.2
      obtain ⟨o1, o2, o3, o4, _⟩ :=
        ih [c] (Or.inr ⟨by rw [hc], hhr⟩) ha.2
          (show noWW true rest = true by rw [hws] at hw; exact hw.2)
          (show endWs true rest = false by rw [hws] at he; exact he)
      refine ⟨o1, o2, o3, o4, ?_⟩
      intro _ hh2
      rw [headNonWs, hws] at hh2
      simp at hh2

theorem punctFix_spec (s : List Char) (ha : allSp s = true)
    (hw : noWW false s = true) (hh : headNonWs s = true)
    (he : endWs false s = false) :
    allSp (punctFix s) = true ∧ noWW false (punctFix s) = true
    ∧ noWP false (punctFix s) = true ∧ endWs false (punctFix s) = false
    ∧ headNonWs (punctFix s) = true := by
  obtain ⟨o1, o2, o3, o4, o5⟩ := punctGo_spec s [] (Or.inl rfl) ha hw he
  exact ⟨o1, o2, o3, o4, o5 rfl hh⟩

theorem normalized_spec (w : List Char) :
    allSp (punctFix (pyStrip (collapseWs w))) = true
    ∧ noWW false (punctFix (pyStrip (collapseWs w))) = true
    ∧ noWP false (punctFix (pyStrip (collapseWs w))) = true
    ∧ headNonWs (punctFix (pyStrip (collapseWs w))) = true
    ∧ endWs false (punctFix (pyStrip (collapseWs w))) = false := by
  obtain ⟨p1, p2, p3, p4⟩ :=
    pyStrip_spec (collapseWs w) (collapseWs_allSp w) (collapseWs_noWW w)
  obtain ⟨o1, o2, o3, o4, o5⟩ := punctFix_spec _ p1 p2 p3 p4
  exact ⟨o1, o2, o3, o5, o4⟩

/-! ## Stage D: segmentation of a normalized string -/

theorem splitGo_prepend (l : List Char) :
    ∀ (pp : Bool) (curRev : List Char),
      splitGo false pp curRev l
        = match splitGo false pp [] l with
          | [] => []
          | p :: ps => (curRev.reverse ++ p) :: ps := by
  induction l with
  | nil =>
    intro pp curRev
    show [curRev.reverse] = [curRev.reverse ++ []]
    simp
  | cons c rest ih =>
    intro pp curRev
    cases hws : isWsChar c
    · have e1 : splitGo false pp curRev (c :: rest)
          = splitGo false (isSentPunct c) (c :: curRev) rest := by
        simp [splitGo, hws]
      have e2 : splitGo false pp [] (c :: rest)
          = splitGo false (isSentPunct c) [c] rest := by
        simp [splitGo, hws]
      rw [e1, e2, ih (isSentPunct c) (c :: curRev), ih (isSentPunct c) [c]]
      cases splitGo false (isSentPunct c) [] rest with
      | nil => rfl
      | cons p ps => simp
    · cases pp with
      | true =>
        have e1 : splitGo false true curRev (c :: rest)
            = curRev.reverse :: splitGo true false [] rest := by
          simp [splitGo, hws]
        have e2 : splitGo false true [] (c :: rest)
            = [] :: splitGo true false [] rest := by
          simp [splitGo, hws]
        rw [e1, e2]
        simp
      | false =>
        have e1 : splitGo false false curRev (c :: rest)
            = splitGo false false (c :: curRev) rest := by
          simp [splitGo, hws]
        have e2 : splitGo false false [] (c :: rest)
            = splitGo false false [c] rest := by
          simp [splitGo, hws]
        rw [e1, e2, ih false (c :: curRev), ih false [c]]
        cases splitGo false false [] rest with
        | nil => rfl
        | cons p ps => simp

theorem ws_not_sent (c : Char) (h : isWsChar c = true) :
    isSentPunct c = false := by
  simp only [isWsChar, Bool.or_eq_true, decide_eq_true_eq] at h
  rcases h with ((((h | h) | h) | h) | h) | h <;> subst h <;> decide

theorem splitGo_spec (l : List Char) :
    (∀ (pp pw : Bool), (pp = true → pw = false) →
      allSp l = true → noWW pw l = true → noWP pw l = true →
      endWs pw l = false →
      ∃ p0 ps, splitGo false pp [] l = p0 :: ps
        ∧ allSp p0 = true ∧ noWW pw p0 = true ∧ noWP pw p0 = true
        ∧ noSentWs pp p0 = true ∧ endWs pw p0 = false
        ∧ (headNonWs l = true → headNonWs p0 = true)
        ∧ (ps ≠ [] → endSent pp p0 = true)
        ∧ ps.all (fun p => pieceOk p && headNonPunct p && !p.isEmpty) = true
        ∧ ps.dropLast.all (fun p => endSent false p) = true)
    ∧ (allSp l = true → noWW true l = true → noWP true l = true →
      endWs true l = false →
      ∃ p0 ps, splitGo true false [] l = p0 :: ps
        ∧ (pieceOk p0 && headNonPunct p0 && !p0.isEmpty) = true
        ∧ (ps ≠ [] → endSent false p0 = true)
        ∧ ps.all (fun p => pieceOk p && headNonPunct p && !p.isEmpty) = true
        ∧ ps.dropLast.all (fun p => endSent false p) = true) := by
  induction l with
  | nil =>
    constructor
    · intro pp pw hcompat _ _ _ he
      refine ⟨[], [], rfl, rfl, rfl, rfl, rfl, ?_, fun _ => rfl,
        fun h => absurd rfl h, rfl, rfl⟩
      exact he
    · intro _ _ _ he
      exact absurd he (by simp [endWs])
  | cons c rest ih =>
    constructor
    · intro pp pw hcompat ha hw hp he
      rw [allSp_cons] at ha
      simp only [Bool.and_eq_true] at ha
      rw [noWW_cons] at hw
      simp only [Bool.and_eq_true] at hw
      rw [noWP_cons] at hp
      simp only [Bool.and_eq_true] at hp
      rw [endWs_cons] at he
      cases hws : isWsChar c
      · -- non-whitespace head: the piece grows
        rw [hws] at hw hp he
        obtain ⟨p0, ps, e, o1, o2, o3, o4, o5, _, o7, o8, o9⟩ :=
          ih.1 (isSentPunct c) false (fun _ => rfl) ha.2 hw.2 hp.2 he
        have e2 : splitGo false pp [] (c :: rest) = (c :: p0) :: ps := by
          have e1 : splitGo false pp [] (c :: rest)
              = splitGo false (isSentPunct c) [c] rest := by
            simp [splitGo, hws]
          rw [e1, splitGo_prepend rest (isSentPunct c) [c], e]
          rfl
        refine ⟨c :: p0, ps, e2, ?_, ?_, ?_, ?_, ?_, ?_, ?_, o8, o9⟩
        · rw [allSp_cons]
          simp only [Bool.and_eq_true]
          exact ⟨ha.1, o1⟩
        · rw [noWW_cons, hws]
          simp only [Bool.and_eq_true]
          exact ⟨hw.1, o2⟩
        · rw [noWP_cons, hws]
          simp only [Bool.and_eq_true]
          exact ⟨hp.1, o3⟩
        · rw [noSentWs_cons, hws]
          simp only [Bool.and_eq_true]
          exact ⟨by simp, o4⟩
        · rw [endWs_cons, hws]
          exact o5
        · intro _
          simp [headNonWs, hws]
        · intro hne
          rw [endSent_cons]
          exact o7 hne
      · -- whitespace head
        rw [hws] at hw hp he
        cases hpp : pp
        · -- not after sentence punctuation: the space joins the piece
          obtain ⟨p0, ps, e, o1, o2, o3, o4, o5, _, o7, o8, o9⟩ :=
            ih.1 false true (fun h => absurd h (by simp)) ha.2 hw.2 hp.2 he
          have e2 : splitGo false false [] (c :: rest) = (c :: p0) :: ps := by
            have e1 : splitGo false false [] (c :: rest)
                = splitGo false false [c] rest := by
              simp [splitGo, hws]
            rw [e1, splitGo_prepend rest false [c], e]
            rfl
          refine ⟨c :: p0, ps, e2, ?_, ?_, ?_, ?_, ?_, ?_, ?_, o8, o9⟩
          · rw [allSp_cons]
            simp only [Bool.and_eq_true]
            exact ⟨ha.1, o1⟩
          · rw [noWW_cons, hws]
            simp only [Bool.and_eq_true]
            exact ⟨hw.1, o2⟩
          · rw [noWP_cons, hws]
            simp only [Bool.and_eq_true]
            exact ⟨hp.1, o3⟩
          · rw [noSentWs_cons, hws, ws_not_sent c hws]
            simp only [Bool.and_eq_true]
            exact ⟨by simp, o4⟩
          · rw [endWs_cons, hws]
            exact o5
          · intro hh
            rw [headNonWs, hws] at hh
            simp at hh
          · intro hne
            rw [endSent_cons, ws_not_sent c hws]
            exact o7 hne
        · -- after sentence punctuation: split here
          have hpw : pw = false := hcompat hpp
          obtain ⟨q0, qs, e, t1, t2, t3, t4⟩ := ih.2 ha.2 hw.2 hp.2 he
          have e2 : splitGo false true [] (c :: rest)
              = [] :: q0 :: qs := by
            have e1 : splitGo false true [] (c :: rest)
                = [] :: splitGo true false [] rest := by
              simp [splitGo, hws]
            rw [e1, e]
          refine ⟨[], q0 :: qs, e2, rfl, rfl, rfl, rfl, ?_, fun _ => rfl,
            fun _ => rfl, ?_, ?_⟩
          · rw [hpw]
            rfl
          · rw [List.all_cons, Bool.and_eq_true]
            exact ⟨t1, t3⟩
          · cases qs with
            | nil => rfl
            | cons q1 qs2 =>
              have hd : ((q0 :: q1 :: qs2).dropLast)
                  = q0 :: (q1 :: qs2).dropLast := rfl
              rw [hd, List.all_cons, Bool.and_eq_true]
              exact ⟨t2 (by simp), t4⟩
    · intro ha hw hp he
      rw [allSp_cons] at ha
      simp only [Bool.and_eq_true] at ha
      rw [noWW_cons] at hw
      simp only [Bool.and_eq_true] at hw
      rw [noWP_cons] at hp
      simp only [Bool.and_eq_true] at hp
      rw [endWs_cons] at he
      cases hws : isWsChar c
      · -- leave separator mode and start a new piece
        rw [hws] at hw hp he
        obtain ⟨p0, ps, e, o1, o2, o3, o4, o5, _, o7, o8, o9⟩ :=
          ih.1 (isSentPunct c) false (fun _ => rfl) ha.2 hw.2 hp.2 he
        have e2 : splitGo true false [] (c :: rest) = (c :: p0) :: ps := by
          have e1 : splitGo true false [] (c :: rest)
              = splitGo false (isSentPunct c) [c] rest := by
            simp [splitGo, hws]
          rw [e1, splitGo_prepend rest (isSentPunct c) [c], e]
          rfl
        have hnp : isPunctChar c = false := by
          have h1 := hp.1
          simp at h1
          exact h1
        refine ⟨c :: p0, ps, e2, ?_, ?_, o8, o9⟩
        · have c1 : allSp (c :: p0) = true := by
            rw [allSp_cons]
            simp only [Bool.and_eq_true]
            exact ⟨ha.1, o1⟩
          have c2 : noWW false (c :: p0) = true := by
            rw [noWW_cons, hws]
            simp only [Bool.and_eq_true]
            exact ⟨by simp, o2⟩
          have c3 : noWP false (c :: p0) = true := by
            rw [noWP_cons, hws]
            simp only [Bool.and_eq_true]
            exact ⟨by simp, o3⟩
          have c4 : noSentWs false (c :: p0) = true := by
            rw [noSentWs_cons]
            simp only [Bool.and_eq_true]
            exact ⟨by simp, o4⟩
          have c5 : headNonWs (c :: p0) = true := by simp [headNonWs, hws]
          have c6 : endWs false (c :: p0) = false := by
            rw [endWs_cons, hws]
            exact o5
          have c7 : headNonPunct (c :: p0) = true := by
            simp [headNonPunct, hnp]
          simp [pieceOk, c1, c2, c3, c4, c5, c6, c7]
        · intro hne
          rw [endSent_cons]
          exact o7 hne
      · rw [hws] at hw
        have h1 := hw.1
        simp at h1

theorem pieceOk_parts (p : List Char) (h : pieceOk p = true) :
    allSp p = true ∧ noWW false p = true ∧ noWP false p = true
    ∧ noSentWs false p = true ∧ headNonWs p = true
    ∧ endWs false p = false := by
  simp only [pieceOk, Bool.and_eq_true, Bool.not_eq_true'] at h
  obtain ⟨⟨⟨⟨⟨h1, h2⟩, h3⟩, h4⟩, h5⟩, h6⟩ := h
  exact ⟨h1, h2, h3, h4, h5, h6⟩

theorem split_piecesOk (z : List Char) (ha : allSp z = true)
    (hw : noWW false z = true) (hp : noWP false z = true)
    (hh : headNonWs z = true) (he : endWs false z = false) :
    piecesOk (splitSentences z) = true := by
  obtain ⟨p0, ps, e, o1, o2, o3, o4, o5, o6, o7, o8, o9⟩ :=
    (splitGo_spec z).1 false false (fun h => absurd h (by simp)) ha hw hp he
  show piecesOk (splitGo false false [] z) = true
  rw [e]
  simp only [piecesOk, Bool.and_eq_true]
  refine ⟨⟨?_, ?_⟩, o8⟩
  · simp [pieceOk, o1, o2, o3, o4, o5, o6 hh]
  · cases ps with
    | nil => rfl
    | cons q qs =>
      have hd : ((p0 :: q :: qs).dropLast) = p0 :: (q :: qs).dropLast := rfl
      rw [hd, List.all_cons, Bool.and_eq_true]
      exact ⟨o7 (by simp), o9⟩

/-! ## Re-splitting the rebuilt output -/

theorem splitGo_consume (p : List Char) :
    ∀ (pp : Bool) (curRev rest : List Char), noSentWs pp p = true →
      splitGo false pp curRev (p ++ rest)
        = splitGo false (endSent pp p) (p.reverse ++ curRev) rest := by
  induction p with
  | nil => intro pp curRev rest _; rfl
  | cons c p2 ih =>
    intro pp curRev rest h
    rw [noSentWs_cons] at h
    simp only [Bool.and_eq_true] at h
    cases hws : isWsChar c
    · have e : splitGo false pp curRev ((c :: p2) ++ rest)
          = splitGo false (isSentPunct c) (c :: curRev) (p2 ++ rest) := by
        simp [splitGo, hws]
      rw [e, ih (isSentPunct c) (c :: curRev) rest h.2, endSent_cons]
      congr 1
      simp [List.append_assoc]
    · have hpp : pp = false := by
        have h1 := h.1
        rw [hws] at h1
        simp at h1
        exact h1
      subst hpp
      have e : splitGo false false curRev ((c :: p2) ++ rest)
          = splitGo false false (c :: curRev) (p2 ++ rest) := by
        simp [splitGo, hws]
      have hs2 : noSentWs false p2 = true := by
        have h2 := h.2
        rwa [ws_not_sent c hws] at h2
      rw [e, ih false (c :: curRev) rest hs2, endSent_cons,
        ws_not_sent c hws]
      congr 1
      simp [List.append_assoc]

theorem splitGo_sep_consume (p : List Char) (rest : List Char)
    (hne : p ≠ []) (hh : headNonWs p = true)
    (hs : noSentWs false p = true) :
    splitGo true false [] (p ++ rest)
      = splitGo false (endSent false p) p.reverse rest := by
  cases p with
  | nil => exact absurd rfl hne
  | cons c p2 =>
    have hws : isWsChar c = false := by
      rw [headNonWs] at hh
      simp only [Bool.not_eq_true'] at hh
      exact hh
    have e : splitGo true false [] ((c :: p2) ++ rest)
        = splitGo false (isSentPunct c) [c] (p2 ++ rest) := by
      simp [splitGo, hws]
    rw [noSentWs_cons] at hs
    simp only [Bool.and_eq_true] at hs
    rw [e, splitGo_consume p2 (isSentPunct c) [c] rest hs.2, endSent_cons]
    congr 1
    simp

theorem splitGo_sep_ws (w : Char) (l : List Char) (h : isWsChar w = true) :
    splitGo true false [] (w :: l) = splitGo true false [] l := by
  simp [splitGo, h]

theorem mem_dropLast_cons (q p : List Char) (rest : List (List Char))
    (h : q ∈ rest.dropLast) : q ∈ (p :: rest).dropLast := by
  cases rest with
  | nil => simp at h
  | cons r rs =>
    have hd : ((p :: r :: rs).dropLast) = p :: (r :: rs).dropLast := rfl
    rw [hd]
    exact List.mem_cons_of_mem p h

theorem resplitFrom (rest : List (List Char)) :
    ∀ (k : Nat) (curRev : List Char) (pp : Bool),
      (rest ≠ [] → pp = true) →
      (∀ p ∈ rest, headNonWs p = true ∧ noSentWs false p = true ∧ p ≠ []) →
      (∀ p ∈ rest.dropLast, endSent false p = true) →
      splitGo false pp curRev (rebuildFrom k rest)
        = curRev.reverse :: rest := by
  induction rest with
  | nil =>
    intro k curRev pp _ _ _
    rfl
  | cons p rest2 ih =>
    intro k curRev pp hpp hprops hdl
    have hpp2 : pp = true := hpp (by simp)
    subst hpp2
    obtain ⟨php, phs, phn⟩ := hprops p (by simp)
    have hnext : rest2 ≠ [] → endSent false p = true := by
      intro hne
      apply hdl
      cases rest2 with
      | nil => exact absurd rfl hne
      | cons r rs =>
        have hd : ((p :: r :: rs).dropLast) = p :: (r :: rs).dropLast := rfl
        rw [hd]
        exact List.mem_cons_self p _
    have hprops2 : ∀ q ∈ rest2,
        headNonWs q = true ∧ noSentWs false q = true ∧ q ≠ [] :=
      fun q hq => hprops q (List.mem_cons_of_mem p hq)
    have hdl2 : ∀ q ∈ rest2.dropLast, endSent false q = true :=
      fun q hq => hdl q (mem_dropLast_cons q p rest2 hq)
    by_cases hk : k % 4 = 0
    · have e : rebuildFrom k (p :: rest2)
          = '\n' :: '\n' :: (p ++ rebuildFrom (k + 1) rest2) := by
        simp [rebuildFrom, hk]
      have e2 : splitGo false true curRev
          ('\n' :: '\n' :: (p ++ rebuildFrom (k + 1) rest2))
          = curRev.reverse
              :: splitGo true false [] ('\n' :: (p ++ rebuildFrom (k + 1) rest2)) := by
        simp [splitGo, show isWsChar '\n' = true from by decide]
      rw [e, e2, splitGo_sep_ws '\n' _ (by decide),
        splitGo_sep_consume p _ phn php phs,
        ih (k + 1) p.reverse (endSent false p) hnext hprops2 hdl2,
        List.reverse_reverse]
    · have e : rebuildFrom k (p :: rest2)
          = ' ' :: (p ++ rebuildFrom (k + 1) rest2) := by
        simp [rebuildFrom, hk]
      have e2 : splitGo false true curRev
          (' ' :: (p ++ rebuildFrom (k + 1) rest2))
          = curRev.reverse
              :: splitGo true false [] (p ++ rebuildFrom (k + 1) rest2) := by
        simp [splitGo, show isWsChar ' ' = true from by decide]
      rw [e, e2, splitGo_sep_consume p _ phn php phs,
        ih (k + 1) p.reverse (endSent false p) hnext hprops2 hdl2,
        List.reverse_reverse]

theorem resplit (ss : List (List Char)) (h : piecesOk ss = true) :
    splitSentences (rebuild ss) = ss := by
  cases ss with
  | nil => simp [piecesOk] at h
  | cons p0 rest =>
    simp only [piecesOk, Bool.and_eq_true] at h
    obtain ⟨⟨hp0, hdl⟩, hrest⟩ := h
    obtain ⟨_, _, _, h4, _, _⟩ := pieceOk_parts p0 hp0
    show splitGo false false [] (rebuild (p0 :: rest)) = p0 :: rest
    have e : rebuild (p0 :: rest) = p0 ++ rebuildFrom 1 rest := rfl
    rw [e, splitGo_consume p0 false [] _ h4, List.append_nil]
    rw [List.all_eq_true] at hrest hdl
    have hnext : rest ≠ [] → endSent false p0 = true := by
      intro hne
      apply hdl
      cases rest with
      | nil => exact absurd rfl hne
      | cons r rs =>
        have hd : ((p0 :: r :: rs).dropLast) = p0 :: (r :: rs).dropLast := rfl
        rw [hd]
        exact List.mem_cons_self p0 _
    have hprops : ∀ q ∈ rest,
        headNonWs q = true ∧ noSentWs false q = true ∧ q ≠ [] := by
      intro q hq
      have := hrest q hq
      simp only [Bool.and_eq_true, Bool.not_eq_true'] at this
      obtain ⟨⟨hq1, _⟩, hq3⟩ := this
      obtain ⟨_, _, _, q4, q5, _⟩ := pieceOk_parts q hq1
      refine ⟨q5, q4, ?_⟩
      intro h0
      rw [h0] at hq3
      simp at hq3
    have hdl2 : ∀ q ∈ rest.dropLast, endSent false q = true := by
      intro q hq
      exact hdl q (mem_dropLast_cons q p0 rest hq)
    rw [resplitFrom rest 1 p0.reverse (endSent false p0) hnext hprops hdl2,
      List.reverse_reverse]

/-! ## The rebuilt output is already stripped -/

theorem stripL_id (l : List Char) (h : headNonWs l = true) : stripL l = l := by
  cases l with
  | nil => rfl
  | cons c cs =>
    rw [headNonWs] at h
    simp only [Bool.not_eq_true'] at h
    simp [stripL, List.dropWhile_cons, h]

theorem stripR_id (l : List Char) (h : endWs false l = false) :
    stripR l = l := by
  induction l with
  | nil => rfl
  | cons c cs ih =>
    rw [endWs_cons] at h
    cases cs with
    | nil =>
      have hc : isWsChar c = false := h
      rw [stripR_cons_eq]
      show (if isWsChar c then [] else [c]) = [c]
      rw [hc]
      rfl
    | cons d ds =>
      have h2 : endWs false (d :: ds) = false := by
        rw [endWs_ne_nil (d :: ds) (by simp) false (isWsChar c)]
        exact h
      rw [stripR_cons_eq, ih h2]

theorem pyStrip_id (l : List Char) (h1 : headNonWs l = true)
    (h2 : endWs false l = false) : pyStrip l = l := by
  unfold pyStrip
  rw [stripL_id l h1, stripR_id l h2]

theorem rebuildFrom_endWs (rest : List (List Char)) :
    ∀ (k : Nat) (b : Bool),
      (∀ p ∈ rest, p ≠ [] ∧ endWs false p = false) →
      rest ≠ [] → endWs b (rebuildFrom k rest) = false := by
  induction rest with
  | nil =>
    intro _ _ _ h
    exact absurd rfl h
  | cons p rest2 ih =>
    intro k b hp _
    obtain ⟨hne, hew⟩ := hp p (by simp)
    have e : rebuildFrom k (p :: rest2)
        = (if k % 4 = 0 then ['\n', '\n'] else [' '])
            ++ (p ++ rebuildFrom (k + 1) rest2) := by
      simp [rebuildFrom, List.append_assoc]
    rw [e, endWs_append, endWs_append]
    cases rest2 with
    | nil =>
      show endWs (endWs _ p) (rebuildFrom (k + 1) []) = false
      have e2 : rebuildFrom (k + 1) ([] : List (List Char)) = [] := rfl
      rw [e2]
      show endWs (endWs _ p) [] = false
      have e3 : ∀ b2 : Bool, endWs b2 [] = b2 := fun _ => rfl
      rw [e3, endWs_ne_nil p hne _ false, hew]
    | cons r rs =>
      exact ih (k + 1) _ (fun q hq => hp q (List.mem_cons_of_mem p hq))
        (by simp)

theorem rebuild_headNonWs (ss : List (List Char)) (h : piecesOk ss = true) :
    headNonWs (rebuild ss) = true := by
  cases ss with
  | nil => rfl
  | cons p0 rest =>
    simp only [piecesOk, Bool.and_eq_true] at h
    obtain ⟨⟨hp0, hdl⟩, _⟩ := h
    obtain ⟨_, _, _, _, h5, _⟩ := pieceOk_parts p0 hp0
    cases hp : p0 with
    | nil =>
      cases rest with
      | nil => rfl
      | cons r rs =>
        rw [List.all_eq_true] at hdl
        have := hdl p0 (by
          have hd : ((p0 :: r :: rs).dropLast) = p0 :: (r :: rs).dropLast := rfl
          rw [hd]
          exact List.mem_cons_self p0 _)
        rw [hp] at this
        simp [endSent] at this
    | cons c cs =>
      show headNonWs ((c :: cs) ++ rebuildFrom 1 rest) = true
      rw [hp] at h5
      rw [List.cons_append]
      simp only [headNonWs] at h5 ⊢
      exact h5

theorem rebuild_endWs (ss : List (List Char)) (h : piecesOk ss = true) :
    endWs false (rebuild ss) = false := by
  cases ss with
  | nil => rfl
  | cons p0 rest =>
    simp only [piecesOk, Bool.and_eq_true] at h
    obtain ⟨⟨hp0, _⟩, hrest⟩ := h
    obtain ⟨_, _, _, _, _, h6⟩ := pieceOk_parts p0 hp0
    show endWs false (p0 ++ rebuildFrom 1 rest) = false
    rw [endWs_append]
    cases rest with
    | nil =>
      have e2 : rebuildFrom 1 ([] : List (List Char)) = [] := rfl
      rw [e2]
      show endWs false p0 = false
      exact h6
    | cons r rs =>
      rw [List.all_eq_true] at hrest
      refine rebuildFrom_endWs (r :: rs) 1 _ ?_ (by simp)
      intro q hq
      have := hrest q hq
      simp only [Bool.and_eq_true, Bool.not_eq_true'] at this
      obtain ⟨⟨hq1, _⟩, hq3⟩ := this
      obtain ⟨_, _, _, _, _, q6⟩ := pieceOk_parts q hq1
      refine ⟨?_, q6⟩
      intro h0
      rw [h0] at hq3
      simp at hq3

/-! ## Whitespace runs and punctuation spacing of the rebuilt output -/

theorem wsRun_append (a : List Char) :
    ∀ (s : WsSt) (b : List Char),
      wsRun s (a ++ b)
        = match wsRun s a with
          | some s2 => wsRun s2 b
          | none => none := by
  induction a with
  | nil => intro s b; rfl
  | cons c cs ih =>
    intro s b
    rw [List.cons_append]
    cases hstep : wsStep s c with
    | none => simp [wsRun, hstep]
    | some s2 => simp [wsRun, hstep, ih s2 b]

theorem nonWs_chars (c : Char) (h : isWsChar c = false) :
    (c = ' ') = False ∧ (c = '\n') = False := by
  constructor
  · by_contra hc
    simp at hc
    rw [hc] at h
    exact absurd h (by decide)
  · by_contra hc
    simp at hc
    rw [hc] at h
    exact absurd h (by decide)

theorem wsStep_nonWs (s : WsSt) (c : Char) (h : isWsChar c = false)
    (hs : s = WsSt.n0 ∨ s = WsSt.sp ∨ s = WsSt.n2) :
    wsStep s c = some WsSt.n0 := by
  obtain ⟨h1, h2⟩ := nonWs_chars c h
  rcases hs with hs | hs | hs <;> subst hs <;> simp [wsStep, h1, h2, h]

theorem piece_wsRun (p : List Char) :
    ∀ (b : Bool), allSp p = true → noWW b p = true → endWs b p = false →
      wsRun (if b then WsSt.sp else WsSt.n0) p = some WsSt.n0 := by
  induction p with
  | nil =>
    intro b _ _ he
    have hb : b = false := he
    rw [hb]
    rfl
  | cons c cs ih =>
    intro b ha hw he
    rw [allSp_cons] at ha
    simp only [Bool.and_eq_true] at ha
    rw [noWW_cons] at hw
    simp only [Bool.and_eq_true] at hw
    rw [endWs_cons] at he
    cases hws : isWsChar c
    · have hstep : wsStep (if b then WsSt.sp else WsSt.n0) c
          = some WsSt.n0 := by
        apply wsStep_nonWs _ _ hws
        cases b
        · exact Or.inl rfl
        · exact Or.inr (Or.inl rfl)
      rw [hws] at hw he
      have := ih false ha.2 hw.2 he
      simp only [if_neg (by simp : ¬false = true)] at this
      simp [wsRun, hstep, this]
    · have hb : b = false := by
        have h1 := hw.1
        rw [hws] at h1
        simp at h1
        exact h1
      have hc : c = ' ' := by
        have h1 := ha.1
        rw [hws] at h1
        simp at h1
        exact h1
      subst hb
      rw [hws] at hw he
      have hstep : wsStep WsSt.n0 c = some WsSt.sp := by
        rw [hc]
        rfl
      have := ih true ha.2 hw.2 he
      simp at this
      simp [wsRun, hstep, this]

theorem piece_wsRun_from (st : WsSt) (p : List Char)
    (hst : st = WsSt.sp ∨ st = WsSt.n2) (hne : p ≠ [])
    (hh : headNonWs p = true) (ha : allSp p = true)
    (hw : noWW false p = true) (he : endWs false p = false) :
    wsRun st p = some WsSt.n0 := by
  cases p with
  | nil => exact absurd rfl hne
  | cons c cs =>
    have hws : isWsChar c = false := by
      rw [headNonWs] at hh
      simp only [Bool.not_eq_true'] at hh
      exact hh
    have hstep : wsStep st c = some WsSt.n0 := by
      apply wsStep_nonWs _ _ hws
      rcases hst with h | h
      · exact Or.inr (Or.inl h)
      · exact Or.inr (Or.inr h)
    rw [allSp_cons] at ha
    simp only [Bool.and_eq_true] at ha
    rw [noWW_cons] at hw
    simp only [Bool.and_eq_true] at hw
    rw [endWs_cons, hws] at he
    rw [hws] at hw
    have := piece_wsRun cs false ha.2 hw.2 he
    simp only [if_neg (by simp : ¬false = true)] at this
    simp [wsRun, hstep, this]

theorem rebuildFrom_wsRun (rest : List (List Char)) :
    ∀ (k : Nat), (∀ p ∈ rest, pieceOk p = true ∧ p ≠ []) →
      wsRun WsSt.n0 (rebuildFrom k rest) = some WsSt.n0 := by
  induction rest with
  | nil => intro _ _; rfl
  | cons p rest2 ih =>
    intro k hp
    obtain ⟨hpo, hne⟩ := hp p (by simp)
    obtain ⟨q1, q2, _, _, q5, q6⟩ := pieceOk_parts p hpo
    have e : rebuildFrom k (p :: rest2)
        = (if k % 4 = 0 then ['\n', '\n'] else [' '])
            ++ (p ++ rebuildFrom (k + 1) rest2) := by
      simp [rebuildFrom, List.append_assoc]
    rw [e, wsRun_append]
    have hrest : wsRun WsSt.n0 (rebuildFrom (k + 1) rest2)
        = some WsSt.n0 :=
      ih (k + 1) (fun q hq => hp q (List.mem_cons_of_mem p hq))
    by_cases hk : k % 4 = 0
    · rw [if_pos hk]
      have hj : wsRun WsSt.n0 ['\n', '\n'] = some WsSt.n2 := rfl
      rw [hj]
      show wsRun WsSt.n2 (p ++ rebuildFrom (k + 1) rest2) = some WsSt.n0
      rw [wsRun_append,
        piece_wsRun_from WsSt.n2 p (Or.inr rfl) hne q5 q1 q2 q6]
      exact hrest
    · rw [if_neg hk]
      have hj : wsRun WsSt.n0 [' '] = some WsSt.sp := rfl
      rw [hj]
      show wsRun WsSt.sp (p ++ rebuildFrom (k + 1) rest2) = some WsSt.n0
      rw [wsRun_append,
        piece_wsRun_from WsSt.sp p (Or.inl rfl) hne q5 q1 q2 q6]
      exact hrest

theorem piecesOk_rest_facts (rest : List (List Char))
    (hrest : (rest.all fun p => pieceOk p && headNonPunct p && !p.isEmpty)
      = true) :
    ∀ q ∈ rest, pieceOk q = true ∧ headNonPunct q = true ∧ q ≠ [] := by
  rw [List.all_eq_true] at hrest
  intro q hq
  have := hrest q hq
  simp only [Bool.and_eq_true, Bool.not_eq_true'] at this
  obtain ⟨⟨hq1, hq2⟩, hq3⟩ := this
  refine ⟨hq1, hq2, ?_⟩
  intro h0
  rw [h0] at hq3
  simp at hq3

theorem rebuild_wsOk (ss : List (List Char)) (h : piecesOk ss = true) :
    wsOk (rebuild ss) = true := by
  cases ss with
  | nil => rfl
  | cons p0 rest =>
    simp only [piecesOk, Bool.and_eq_true] at h
    obtain ⟨⟨hp0, _⟩, hrest⟩ := h
    obtain ⟨q1, q2, _, _, _, q6⟩ := pieceOk_parts p0 hp0
    show wsOk (p0 ++ rebuildFrom 1 rest) = true
    unfold wsOk
    rw [wsRun_append]
    have h0 : wsRun WsSt.n0 p0 = some WsSt.n0 := by
      have := piece_wsRun p0 false q1 q2 q6
      simpa using this
    rw [h0]
    show (match wsRun WsSt.n0 (rebuildFrom 1 rest) with
          | some s => s != WsSt.n1
          | none => false) = true
    rw [rebuildFrom_wsRun rest 1
      (fun q hq => ⟨(piecesOk_rest_facts rest hrest q hq).1,
        (piecesOk_rest_facts rest hrest q hq).2.2⟩)]
    rfl

theorem rebuildFrom_noWP (rest : List (List Char)) :
    ∀ (k : Nat),
      (∀ q ∈ rest, pieceOk q = true ∧ headNonPunct q = true ∧ q ≠ []) →
      noWP false (rebuildFrom k rest) = true := by
  induction rest with
  | nil => intro _ _; rfl
  | cons p rest2 ih =>
    intro k hp
    obtain ⟨hpo, hhp, hne⟩ := hp p (by simp)
    obtain ⟨_, _, q3, _, _, q6⟩ := pieceOk_parts p hpo
    have e : rebuildFrom k (p :: rest2)
        = (if k % 4 = 0 then ['\n', '\n'] else [' '])
            ++ (p ++ rebuildFrom (k + 1) rest2) := by
      simp [rebuildFrom, List.append_assoc]
    rw [e, noWP_append, noWP_append]
    have hj1 : noWP false (if k % 4 = 0 then ['\n', '\n'] else [' '])
        = true := by
      by_cases hk : k % 4 = 0
      · rw [if_pos hk]; rfl
      · rw [if_neg hk]; rfl
    have hj2 : endWs false (if k % 4 = 0 then ['\n', '\n'] else [' '])
        = true := by
      by_cases hk : k % 4 = 0
      · rw [if_pos hk]; rfl
      · rw [if_neg hk]; rfl
    rw [hj1, hj2]
    have hp1 : noWP true p = true := noWP_true_of_headNonPunct p hhp q3
    rw [hp1]
    have hp2 : endWs true p = false := by
      rw [endWs_ne_nil p hne true false]
      exact q6
    rw [hp2]
    have := ih (k + 1) (fun q hq => hp q (List.mem_cons_of_mem p hq))
    rw [this]
    rfl

theorem rebuild_noWP (ss : List (List Char)) (h : piecesOk ss = true) :
    noWP false (rebuild ss) = true := by
  cases ss with
  | nil => rfl
  | cons p0 rest =>
    simp only [piecesOk, Bool.and_eq_true] at h
    obtain ⟨⟨hp0, _⟩, hrest⟩ := h
    obtain ⟨_, _, q3, _, _, q6⟩ := pieceOk_parts p0 hp0
    show noWP false (p0 ++ rebuildFrom 1 rest) = true
    rw [noWP_append, q3, q6]
    rw [rebuildFrom_noWP rest 1 (piecesOk_rest_facts rest hrest)]
    rfl

/-! ## Claim theorems (part 2) -/

theorem clean_eq_rebuild (frags : List Fragment) :
    clean_transcript frags
      = rebuild (splitSentences (punctFix (pyStrip (collapseWs
          (fillerSub (interc [' '] (frags.map Fragment.text))))))) := by
  unfold clean_transcript cleanText
  exact joinParas_groupParas_eq_rebuild _

theorem clean_piecesOk (frags : List Fragment) :
    piecesOk (splitSentences (punctFix (pyStrip (collapseWs
      (fillerSub (interc [' '] (frags.map Fragment.text))))))) = true := by
  obtain ⟨n1, n2, n3, n4, n5⟩ :=
    normalized_spec (fillerSub (interc [' '] (frags.map Fragment.text)))
  exact split_piecesOk _ n1 n2 n3 n4 n5

/-- Claim C3, counterexample: removal of an interposed filler can re-form
the two-word filler phrase `you know`, which then stands in the Clean
Transcript as standalone words (the filler matcher still matches it, so a
second substitution pass would change the output). -/
theorem C3_counterexample :
    clean_transcript [⟨"you um know".data, 0, 0⟩] = "you know".data
    ∧ fillerSub (clean_transcript [⟨"you um know".data, 0, 0⟩])
        ≠ clean_transcript [⟨"you um know".data, 0, 0⟩] :=
  ⟨rfl, by decide⟩

/-- Claim C3, amended: for every fragment sequence, the Clean Transcript
contains no whitespace run other than a single space or the two-newline
paragraph separator, and no whitespace immediately preceding `.`, `,`, `!`
or `?`; the no-surviving-filler part of the invariant fails, since filler
removal can re-form the phrases `you know` and `i mean`. -/
theorem C3_theorem (frags : List Fragment) :
    wsOk (clean_transcript frags) = true
    ∧ noWP false (clean_transcript frags) = true := by
  rw [clean_eq_rebuild]
  exact ⟨rebuild_wsOk _ (clean_piecesOk frags),
    rebuild_noWP _ (clean_piecesOk frags)⟩

/-- Claim C8, counterexample: cleaning is not idempotent through the
fragment entry point: cleaning `you um know` yields `you know`, and
cleaning that output again removes it entirely. -/
theorem C8_counterexample :
    clean_transcript [⟨clean_transcript [⟨"you um know".data, 0, 0⟩], 0, 0⟩]
      ≠ clean_transcript [⟨"you um know".data, 0, 0⟩] := by decide

/-- Claim C8, amended: feeding the Clean Transcript back through the
flat-string entry point returns it unchanged: `format_transcript` is the
identity on every output of `clean_transcript`; idempotence through the
fragment entry point fails when filler phrases re-form. -/
theorem C8_theorem (frags : List Fragment) :
    format_transcript (clean_transcript frags) = clean_transcript frags := by
  have hpo := clean_piecesOk frags
  rw [clean_eq_rebuild frags]
  unfold format_transcript
  rw [pyStrip_id _ (rebuild_headNonWs _ hpo) (rebuild_endWs _ hpo),
    resplit _ hpo]
  exact joinParas_groupParas_eq_rebuild _

end YTS
